import Mathlib

/-!
Shallow embedding of `src/pytorch/image_encoder.py` (DINOv2-style Vision
Transformer encoder) and proofs about the claims of its specification.

Modelling conventions:
* machine reals are modelled by `ℚ` (exact arithmetic; the spec's
  "within floating-point tolerance" becomes exact equality);
* tensors are modelled by index functions together with their explicit
  shape data, mirroring how PyTorch carries shapes alongside values;
* numerical substrate primitives the source delegates to (the softmax
  exponential, `F.interpolate`'s resampling kernel) are passed in as
  explicit function parameters, matching the spec's stance that tensor
  primitives belong to an external substrate;
* Python `assert`/`raise` become `Except String`;
* sources of randomness (`torch.randperm`, `bernoulli_`) become explicit
  arguments: a permutation of batch indices, or a per-sample boolean mask.
-/

namespace ImageEncoder

/-! ## SwiGLUFFNFused hidden-width computation (source lines 181-198)

`hidden_features = (int(hidden_features * 2 / 3) + 7) // 8 * 8`.
Python's `int(h * 2 / 3)` truncates the float quotient toward zero; for the
integer widths in range it equals `⌊2h/3⌋`, i.e. `2 * h / 3` in `ℕ`. -/

def swiGLUFFNFusedHidden (hidden_features : ℕ) : ℕ :=
  (2 * hidden_features / 3 + 7) / 8 * 8

/-! ## PatchEmbed.forward (source lines 103-120)

Input `(B,C,H,W)`, learned conv `proj` with kernel = stride = patch size,
then `flatten(2).transpose(1,2)` giving `(B, H'*W', D)` when
`flatten_embedding` is set.  The two `assert` statements become errors. -/

/-- A value-level model of a 4-d tensor `[b, c, h, w]`: its shape and its
entries as an index function. -/
structure Tensor4 where
  b : ℕ
  c : ℕ
  h : ℕ
  w : ℕ
  val : ℕ → ℕ → ℕ → ℕ → ℚ

/-- A value-level model of a 3-d tensor `[b, n, d]` (a batch of token
sequences). -/
structure Tensor3 where
  b : ℕ
  n : ℕ
  d : ℕ
  val : ℕ → ℕ → ℕ → ℚ

/-- The patch-embedding module state: patch size (height, width), channel
count, embedding dimension, conv weight/bias, and the flattening flag.
`norm_layer` defaults to `None` in the source, i.e. `nn.Identity`. -/
structure PatchEmbed where
  patch_h : ℕ
  patch_w : ℕ
  in_chans : ℕ
  embed_dim : ℕ
  proj_weight : ℕ → ℕ → ℕ → ℕ → ℚ  -- [embed_dim, in_chans, patch_h, patch_w]
  proj_bias : ℕ → ℚ                 -- [embed_dim]
  flatten_embedding : Bool

/-- `self.proj(x)`: Conv2d with kernel size = stride = patch size.  Output
grid position `(gh, gw)` reads the input window starting at
`(gh*patch_h, gw*patch_w)`; output spatial size is `h / patch_h` by
`w / patch_w` (exact when the assert passed). -/
def PatchEmbed.proj (pe : PatchEmbed) (x : Tensor4) : Tensor4 :=
  { b := x.b
    c := pe.embed_dim
    h := x.h / pe.patch_h
    w := x.w / pe.patch_w
    val := fun bi d gh gw =>
      pe.proj_bias d +
        ∑ ci ∈ Finset.range pe.in_chans,
          ∑ i ∈ Finset.range pe.patch_h,
            ∑ j ∈ Finset.range pe.patch_w,
              pe.proj_weight d ci i j *
                x.val bi ci (gh * pe.patch_h + i) (gw * pe.patch_w + j) }

/-- Result of `PatchEmbed.forward`: a flattened token sequence
`(B, H'*W', D)` when `flatten_embedding` is set, otherwise the spatial grid
`(B, H', W', D)`. -/
inductive PatchEmbedOut where
  | flat (t : Tensor3)
  | spatial (t : Tensor4)

/-- `PatchEmbed.forward`: checks divisibility by patch size (the two
`assert` statements), applies the conv, then `flatten(2).transpose(1, 2)`
(row-major flattening of the `H' × W'` grid into `H'*W'` tokens); when
`flatten_embedding` is off, reshapes back to `(B, H', W', D)`. -/
def PatchEmbed.forward (pe : PatchEmbed) (x : Tensor4) :
    Except String PatchEmbedOut :=
  if x.h % pe.patch_h ≠ 0 then
    .error "Input image height is not a multiple of patch height"
  else if x.w % pe.patch_w ≠ 0 then
    .error "Input image width is not a multiple of patch width"
  else
    let y := pe.proj x
    let flatTok : Tensor3 :=
      { b := y.b
        n := y.h * y.w
        d := pe.embed_dim
        val := fun bi t d => y.val bi d (t / y.w) (t % y.w) }
    if pe.flatten_embedding then
      .ok (.flat flatTok)
    else
      .ok (.spatial
        { b := y.b, c := y.h, h := y.w, w := pe.embed_dim
          val := fun bi gh gw d => flatTok.val bi (gh * y.w + gw) d })

/-! ## VisionTransformer.interpolate_pos_encoding (source lines 752-788)

`npatch = x.shape[1] - 1`, `num_patches = self.pos_embed.shape[1] - 1`;
identity fast path when `npatch == num_patches and w == h`; otherwise the
patch rows of the table are reshaped to the `M × M` reference grid
(`M = int(math.sqrt(num_patches))`, asserted to be exact) and bilinearly
resampled by the substrate's `F.interpolate`.  The resampling kernel is a
substrate primitive and is passed in as the parameter `interpF`
(input grid values, input grid side, output height, output width ↦ output
grid values); with a `scale_factor` the substrate's output spatial size is
`⌊input_size · scale⌋`, which the source then asserts to equal `(w0, h0)`. -/

/-- Output spatial size of `F.interpolate` in `scale_factor` mode. -/
def interpOutSize (inSize : ℕ) (scale : ℚ) : ℕ := (⌊(inSize : ℚ) * scale⌋).toNat

/-- The positional-encoding state of the model: patch size, the
work-around interpolation offset, and the learned table `[1, N+1, dim]`. -/
structure PosEnc where
  patch_size : ℕ
  interpolate_offset : ℚ
  interpolate_antialias : Bool
  pos_embed : Tensor3

/-- `interpolate_pos_encoding self x w h` where `npatch = x.shape[1] - 1`
and `dim = x.shape[-1]`.  Python's `int(math.sqrt n)` is `Nat.sqrt n` for
the table sizes in range.  The two `assert`s become errors. -/
def PosEnc.interpolatePosEncoding (cfg : PosEnc)
    (interpF : Bool → (ℕ → ℕ → ℕ → ℚ) → ℕ → ℕ → ℕ → ℕ → ℕ → ℕ → ℚ)
    (npatch w h : ℕ) : Except String Tensor3 :=
  let num_patches := cfg.pos_embed.n - 1
  if npatch = num_patches ∧ w = h then .ok cfg.pos_embed
  else
    let dim := cfg.pos_embed.d
    let w0 := w / cfg.patch_size
    let h0 := h / cfg.patch_size
    let num_patches_dim := Nat.sqrt num_patches
    if num_patches ≠ num_patches_dim * num_patches_dim then
      .error "num_patches is not a perfect square"
    else
      -- patch rows of the table on the reference grid, channels first:
      -- reshape(1, M, M, dim).permute(0, 3, 1, 2)
      let inGrid : ℕ → ℕ → ℕ → ℚ := fun d a b =>
        cfg.pos_embed.val 0 (1 + (a * num_patches_dim + b)) d
      let outSize : ℕ × ℕ :=
        if cfg.interpolate_offset ≠ 0 then
          (interpOutSize num_patches_dim
            (((w0 : ℚ) + cfg.interpolate_offset) / num_patches_dim),
           interpOutSize num_patches_dim
            (((h0 : ℚ) + cfg.interpolate_offset) / num_patches_dim))
        else (w0, h0)
      if outSize ≠ (w0, h0) then
        .error "interpolated positional embedding has unexpected shape"
      else
        -- permute(0, 2, 3, 1).view(1, -1, dim) of the resampled grid
        let outGrid :=
          interpF cfg.interpolate_antialias inGrid num_patches_dim outSize.1 outSize.2
        .ok { b := 1
              n := 1 + w0 * h0
              d := dim
              val := fun _ t d =>
                if t = 0 then cfg.pos_embed.val 0 0 d
                else outGrid d ((t - 1) / h0) ((t - 1) % h0) }

/-! ## The attention-bias cache (source lines 452-480)

`attn_bias_cache: Dict[Tuple, Any] = {}` is process-wide mutable state;
we model it as explicit state threaded through `get_attn_bias_and_cat`.
The dict key `all_shapes` is the tuple of `(batch_size, seq_len)` pairs;
a dict is modelled as an insertion-ordered association list.  The cached
value `fmha.BlockDiagonalMask.from_seqlens(seqlens)` (with `_batch_sizes`
attached) is modelled by the data determining it.  `cat_tensors` does not
touch the cache; its eval-mode value semantics are embedded separately for
the nested-tensor claim. -/

/-- The xformers `BlockDiagonalMask` as cached by the source: the
per-sample sequence lengths it was built from, plus the `_batch_sizes`
list the source attaches to it. -/
structure BlockDiagonalMask where
  seqlens : List ℕ
  batch_sizes : List ℕ
deriving DecidableEq

/-- The process-wide `attn_bias_cache`, as an insertion-ordered
association list keyed by the shape signature. -/
abbrev AttnBiasCache := List (List (ℕ × ℕ) × BlockDiagonalMask)

/-- Dict lookup. -/
def cacheFind : AttnBiasCache → List (ℕ × ℕ) → Option BlockDiagonalMask
  | [], _ => none
  | (k, v) :: rest, key => if k = key then some v else cacheFind rest key

/-- `seqlens`: for each `(b, x)` pair, `x.shape[1]` repeated `b` times. -/
def mkSeqlens (batch_sizes ns : List ℕ) : List ℕ :=
  ((batch_sizes.zip ns).map (fun p => List.replicate p.1 p.2)).flatten

/-- `batch_sizes`: from `branges` when given, else `[x.shape[0]]`. -/
def catBatchSizes (xshapes : List (ℕ × ℕ)) (branges : Option (List ℕ)) : List ℕ :=
  match branges with
  | some bl => bl
  | none => xshapes.map Prod.fst

/-- `all_shapes`: the dict key, `tuple((b, x.shape[1]) for b, x in zip(...))`. -/
def allShapesKey (xshapes : List (ℕ × ℕ)) (branges : Option (List ℕ)) :
    List (ℕ × ℕ) :=
  (catBatchSizes xshapes branges).zip (xshapes.map Prod.snd)

/-- The mask built on a cache miss: `fmha.BlockDiagonalMask.from_seqlens`
with `_batch_sizes` attached. -/
def freshMask (xshapes : List (ℕ × ℕ)) (branges : Option (List ℕ)) :
    BlockDiagonalMask :=
  { seqlens := mkSeqlens (catBatchSizes xshapes branges) (xshapes.map Prod.snd)
    batch_sizes := catBatchSizes xshapes branges }

/-- The cache-manipulating part of `get_attn_bias_and_cat`: `xshapes` is
`[(x.shape[0], x.shape[1]) for x in x_list]`, `branges` (if given)
carries `[b.shape[0] for b in branges]`.  Returns the updated cache and
`attn_bias_cache[all_shapes]`. -/
def getAttnBiasCached (cache : AttnBiasCache) (xshapes : List (ℕ × ℕ))
    (branges : Option (List ℕ)) : AttnBiasCache × BlockDiagonalMask :=
  let all_shapes := allShapesKey xshapes branges
  let cache' : AttnBiasCache :=
    if (cacheFind cache all_shapes).isSome then cache
    else cache ++ [(all_shapes, freshMask xshapes branges)]
  (cache', (cacheFind cache' all_shapes).getD { seqlens := [], batch_sizes := [] })

/-! ## Attention and MemEffAttention (source lines 201-264)

`nn.Linear` weights are index functions; the per-token linear map is
`linearTok`.  `self.scale = head_dim ** -0.5` is a float the substrate
computes at construction; it is carried as a field.  The softmax
exponential is the substrate parameter `expF`.  The `Dropout` modules are
constructed with the default probability `0.0` throughout this encoder
(`Block` passes `attn_drop = drop = 0.0`), where `Dropout` is the
identity; they are embedded as such. -/

/-- Per-token linear layer: `out o = b o + Σ_{i < inDim} w o i * x i`. -/
def linearTok (w : ℕ → ℕ → ℚ) (b : ℕ → ℚ) (inDim : ℕ) (x : ℕ → ℚ) : ℕ → ℚ :=
  fun o => b o + ∑ i ∈ Finset.range inDim, w o i * x i

/-- The weights of an `Attention`/`MemEffAttention` module. -/
structure AttentionW where
  dim : ℕ
  num_heads : ℕ
  scale : ℚ                -- head_dim ** -0.5, computed by the float substrate
  qkv_w : ℕ → ℕ → ℚ        -- [3*dim, dim]
  qkv_b : ℕ → ℚ
  proj_w : ℕ → ℕ → ℚ       -- [dim, dim]
  proj_b : ℕ → ℚ

/-- `Attention.forward` (the standard dense path, source lines 223-240):
qkv projection, `reshape(B, N, 3, H, C//H).permute(2, 0, 3, 1, 4)`,
`q*scale @ kᵀ`, softmax over keys, `@ v`, head merge, output projection. -/
def Attention.forward (A : AttentionW) (expF : ℚ → ℚ) (x : Tensor3) : Tensor3 :=
  let hd := x.d / A.num_heads
  let qkvOut := fun bi t => linearTok A.qkv_w A.qkv_b A.dim (x.val bi t)
  let q := fun bi hh t e => A.scale * qkvOut bi t (0 * (A.num_heads * hd) + hh * hd + e)
  let k := fun bi hh t e => qkvOut bi t (1 * (A.num_heads * hd) + hh * hd + e)
  let v := fun bi hh t e => qkvOut bi t (2 * (A.num_heads * hd) + hh * hd + e)
  let logit := fun bi hh t1 t2 => ∑ e ∈ Finset.range hd, q bi hh t1 e * k bi hh t2 e
  let attnW := fun bi hh t1 t2 =>
    expF (logit bi hh t1 t2) / ∑ t ∈ Finset.range x.n, expF (logit bi hh t1 t)
  let ctx := fun bi hh t e => ∑ t2 ∈ Finset.range x.n, attnW bi hh t t2 * v bi hh t2 e
  { b := x.b, n := x.n, d := x.d
    val := fun bi t c =>
      linearTok A.proj_w A.proj_b A.dim (fun c' => ctx bi (c' / hd) t (c' % hd)) c }

/-- Whether two token positions of a block-diagonally packed sequence with
the given per-block lengths lie in the same block. -/
def sameBlock : List ℕ → ℕ → ℕ → Bool
  | [], _, _ => false
  | n :: ns, p, q => if p < n then q < n else (decide (n ≤ q) && sameBlock ns (p - n) (q - n))

/-- The qkv projection of one token, `self.qkv(x)` per token. -/
def attnQKV (A : AttentionW) (x : ℕ → ℚ) : ℕ → ℚ :=
  linearTok A.qkv_w A.qkv_b A.dim x

/-- One pre-softmax attention score between tokens `t1` and `t2` on head
`hh`: the `q·k` dot product over the head dimension, scaled by the
substrate's softmax scale.  The `q` and `k` rows are slices of the qkv
projection per the `reshape(B, N, 3, H, C//H)` layout. -/
def attnLogit (A : AttentionW) (xscale : ℚ) (hd : ℕ) (x : ℕ → ℕ → ℚ)
    (hh t1 t2 : ℕ) : ℚ :=
  xscale * ∑ e ∈ Finset.range hd,
    attnQKV A (x t1) (0 * (A.num_heads * hd) + hh * hd + e) *
      attnQKV A (x t2) (1 * (A.num_heads * hd) + hh * hd + e)

/-- The `v` row of token `t` on head `hh` (third slice of the qkv
projection). -/
def attnV (A : AttentionW) (hd : ℕ) (x : ℕ → ℕ → ℚ) (t hh e : ℕ) : ℚ :=
  attnQKV A (x t) (2 * (A.num_heads * hd) + hh * hd + e)

/-- The key mask of `memory_efficient_attention`: everything without a
bias; only positions of the same block under a `BlockDiagonalMask`. -/
def maskAllowed (attn_bias : Option BlockDiagonalMask) : ℕ → ℕ → Bool :=
  match attn_bias with
  | none => fun _ _ => true
  | some bias => sameBlock bias.seqlens

/-- The softmax-weighted value sum of `memory_efficient_attention` for
query token `t`, head `hh`, head channel `e`: softmax of the allowed
scores over the allowed keys. -/
def memEffCtx (A : AttentionW) (expF : ℚ → ℚ) (xscale : ℚ) (n hd : ℕ)
    (allowed : ℕ → ℕ → Bool) (x : ℕ → ℕ → ℚ) (t hh e : ℕ) : ℚ :=
  ∑ t2 ∈ (Finset.range n).filter (fun t2 => allowed t t2),
    (expF (attnLogit A xscale hd x hh t t2) /
      ∑ t3 ∈ (Finset.range n).filter (fun t3 => allowed t t3),
        expF (attnLogit A xscale hd x hh t t3)) * attnV A hd x t2 hh e

/-- The xformers branch of `MemEffAttention.forward` on one batch row of
`n` tokens of width `d`: qkv projection,
`memory_efficient_attention(q, k, v, attn_bias)` — whose substrate
semantics is softmax attention with scores scaled by `xscale` (the
substrate's default `1/sqrt(head_dim)` float) and restricted to each
block of the `BlockDiagonalMask` when a bias is given — then head merge
and output projection. -/
def memEffAttnVal (A : AttentionW) (expF : ℚ → ℚ) (xscale : ℚ) (n d : ℕ)
    (attn_bias : Option BlockDiagonalMask) (x : ℕ → ℕ → ℚ) : ℕ → ℕ → ℚ :=
  let hd := d / A.num_heads
  fun t c =>
    linearTok A.proj_w A.proj_b A.dim
      (fun c' => memEffCtx A expF xscale n hd (maskAllowed attn_bias) x t
        (c' / hd) (c' % hd)) c

/-- `MemEffAttention.forward` (source lines 246-264).  Without xformers:
an explicit bias raises, otherwise the call falls back to
`super().forward(x)` (the dense path).  With xformers: the memory-efficient
path, applied to each batch row. -/
def MemEffAttention.forward (A : AttentionW) (expF : ℚ → ℚ) (xscale : ℚ)
    (xformersAvailable : Bool) (x : Tensor3)
    (attn_bias : Option BlockDiagonalMask) : Except String Tensor3 :=
  if ¬ xformersAvailable then
    if attn_bias.isSome then
      .error "xFormers is required for using nested tensors"
    else
      .ok (Attention.forward A expF x)
  else
    .ok { b := x.b, n := x.n, d := x.d
          val := fun bi => memEffAttnVal A expF xscale x.n x.d attn_bias (x.val bi) }

/-! ## Mlp, Block, and NestedTensorBlock (source lines 29-55, 309-389,
455-480, 515-570)

The nested-tensor claim concerns the eval path of
`NestedTensorBlock.forward_nested` on a list of single-sample tensors
`[1, n_i, d]`.  A single-sample tensor is a `Seq1`; concatenation along
the token dimension (`torch.cat(tensors_bs1, dim=1)`) is `catVal`;
`attn_bias.split` is `splitCat`.  `LayerNorm` is a per-token substrate
map (it needs a square root); `nn.GELU` is the substrate parameter
`act`; `LayerScale`'s `gamma` is a per-channel multiplier, `fun _ => 1`
for `nn.Identity`. -/

/-- The weights of an `Mlp` module (`fc1`, activation, `fc2`; the two
`Dropout`s have probability `0.0` here and are identities). -/
structure MlpW where
  in_features : ℕ
  hidden_features : ℕ
  fc1_w : ℕ → ℕ → ℚ
  fc1_b : ℕ → ℚ
  fc2_w : ℕ → ℕ → ℚ
  fc2_b : ℕ → ℚ

/-- `Mlp.forward` on one token. -/
def MlpW.forward (m : MlpW) (act : ℚ → ℚ) (x : ℕ → ℚ) : ℕ → ℚ :=
  linearTok m.fc2_w m.fc2_b m.hidden_features
    (fun hI => act (linearTok m.fc1_w m.fc1_b m.in_features x hI))

/-- The weights and substrate maps of one transformer `Block` built with
`attn_class = MemEffAttention` (as every `vit_*` constructor does). -/
structure BlockW where
  attn : AttentionW
  norm1 : (ℕ → ℚ) → (ℕ → ℚ)
  norm2 : (ℕ → ℚ) → (ℕ → ℚ)
  ls1 : ℕ → ℚ
  ls2 : ℕ → ℚ
  mlp : MlpW
  act : ℚ → ℚ

/-- A single-sample token sequence: the tensor `[1, n, d]`. -/
structure Seq1 where
  n : ℕ
  val : ℕ → ℕ → ℚ

instance : Inhabited Seq1 := ⟨⟨0, fun _ _ => 0⟩⟩

/-- `torch.cat` of single-sample sequences along the token dimension. -/
def catVal : List Seq1 → ℕ → ℕ → ℚ
  | [], _, _ => 0
  | s :: rest, p, c => if p < s.n then s.val p c else catVal rest (p - s.n) c

/-- `attn_bias.split`: cut a packed token field back into sequences of
the given lengths. -/
def splitCat : List ℕ → (ℕ → ℕ → ℚ) → List Seq1
  | [], _ => []
  | n :: rest, f => ⟨n, f⟩ :: splitCat rest (fun p => f (n + p))

/-- `Block.forward` (eval branch, source lines 386-389) on a
single-sample tensor `[1, s.n, d]`:
`x = x + ls1(attn(norm1(x)))` then `x = x + ls2(mlp(norm2(x)))`, where
`attn` is `MemEffAttention` called without a bias (the xformers path). -/
def blockForwardEvalSingle (blk : BlockW) (expF : ℚ → ℚ) (xscale : ℚ)
    (d : ℕ) (s : Seq1) : Seq1 :=
  let x := s.val
  let x1 := fun p c => x p c +
    blk.ls1 c *
      memEffAttnVal blk.attn expF xscale s.n d none (fun p2 => blk.norm1 (x p2)) p c
  ⟨s.n, fun p c => x1 p c + blk.ls2 c * blk.mlp.forward blk.act (blk.norm2 (x1 p)) c⟩

/-- The `BlockDiagonalMask` built by `get_attn_bias_and_cat` for a list
of single-sample tensors (all batch sizes 1). -/
def nestedBias (xl : List Seq1) : BlockDiagonalMask :=
  { seqlens := mkSeqlens (xl.map fun _ => 1) (xl.map Seq1.n)
    batch_sizes := xl.map fun _ => 1 }

/-- The packed token field computed by the eval branch of
`NestedTensorBlock.forward_nested` before the final split:
`x = get_attn_bias_and_cat(x_list)[1]`;
`x = x + ls1(attn(norm1(x), attn_bias))`; `x = x + ls2(mlp(norm2(x)))`. -/
def nestedPacked (blk : BlockW) (expF : ℚ → ℚ) (xscale : ℚ)
    (d : ℕ) (xl : List Seq1) : ℕ → ℕ → ℚ :=
  let total := (xl.map Seq1.n).sum
  let x := catVal xl
  let x1 := fun p c => x p c +
    blk.ls1 c *
      memEffAttnVal blk.attn expF xscale total d (some (nestedBias xl))
        (fun p2 => blk.norm1 (x p2)) p c
  fun p c => x1 p c + blk.ls2 c * blk.mlp.forward blk.act (blk.norm2 (x1 p)) c

/-- `NestedTensorBlock.forward_nested` (eval branch, source lines
548-560) on a list of single-sample tensors:
`attn_bias, x = get_attn_bias_and_cat(x_list)`; the two residual updates
of the packed sequence; `return attn_bias.split(x)`. -/
def blockForwardNestedEval (blk : BlockW) (expF : ℚ → ℚ) (xscale : ℚ)
    (d : ℕ) (xl : List Seq1) : List Seq1 :=
  splitCat (xl.map Seq1.n) (nestedPacked blk expF xscale d xl)

/-! ## Stochastic depth (source lines 284-306, 364-416)

Randomness is explicit: `torch.randperm(b)` becomes a permutation
parameter `perm` (the gathered subset is its first `sample_subset_size`
entries), `bernoulli_(keep_prob)` becomes a per-sample mask parameter.
Batch tensors `[b, n, d]` are index functions `ℕ → ℕ → ℕ → ℚ`; the
source's `flatten(1)` / `view_as(x)` round-trip is a bijection on each
row's `(token, channel)` content and is embedded as the identity on that
indexing.  `Block.forward` builds the two residual closures
`attn_residual_func` / `ffn_residual_func` from its sub-modules and then
dispatches on mode and drop rate; the embedding takes those closures as
parameters (`attnResF`, `ffnResF`) and models the dispatch
(`Block.forwardDispatch`). -/

/-- `drop_path_impl` (source lines 284-295): identity when the rate is 0
or not training; otherwise the per-sample Bernoulli tensor (the `mask`
parameter), divided by `keep_prob` when positive, multiplies the input. -/
def dropPathImpl (drop_prob : ℚ) (training : Bool) (mask : ℕ → Bool)
    (x : ℕ → ℕ → ℕ → ℚ) : ℕ → ℕ → ℕ → ℚ :=
  if drop_prob = 0 ∨ training = false then x
  else
    let keep_prob := 1 - drop_prob
    let random_tensor : ℕ → ℚ := fun bi => if mask bi then 1 else 0
    let random_tensor :=
      if keep_prob > 0 then (fun bi => random_tensor bi / keep_prob) else random_tensor
    fun bi t c => x bi t c * random_tensor bi

/-- `max(int(b * (1 - sample_drop_ratio)), 1)`.  Python `int()` truncates
toward zero; for a non-negative argument that is the floor, and for a
negative one both computations are clamped to 1 by the `max`. -/
def sampleSubsetSize (b : ℕ) (r : ℚ) : ℕ :=
  max (⌊(b : ℚ) * (1 - r)⌋).toNat 1

/-- `torch.index_add(x_flat, 0, brange, residual, alpha)`: row
`brange[j]` receives `alpha * residual[j]` for each `j` below the subset
size, in order. -/
def indexAddRows : ℕ → (ℕ → ℕ → ℕ → ℚ) → (ℕ → ℕ) → (ℕ → ℕ → ℕ → ℚ) → ℚ →
    ℕ → ℕ → ℕ → ℚ
  | 0, x, _, _, _ => x
  | k + 1, x, idx, res, α =>
    fun i t c => indexAddRows k x idx res α i t c +
      if i = idx k then α * res k t c else 0

/-- `drop_add_residual_stochastic_depth` (source lines 392-416): gather
the first `sample_subset_size` rows of the permutation, apply the
residual function to the gathered subset, and scatter-add the result back
scaled by `b / sample_subset_size`. -/
def drop_add_residual_stochastic_depth (b : ℕ) (x : ℕ → ℕ → ℕ → ℚ)
    (residual_func : (ℕ → ℕ → ℕ → ℚ) → ℕ → ℕ → ℕ → ℚ)
    (sample_drop_ratio : ℚ) (perm : ℕ → ℕ) : ℕ → ℕ → ℕ → ℚ :=
  let sample_subset_size := sampleSubsetSize b sample_drop_ratio
  let brange := perm
  let x_subset := fun j => x (brange j)
  let residual := residual_func x_subset
  let residual_scale_factor := (b : ℚ) / (sample_subset_size : ℚ)
  indexAddRows sample_subset_size x brange residual residual_scale_factor

/-- The mode/rate dispatch of `Block.forward` (source lines 364-389),
with the two residual closures as parameters: above rate 0.1 in training,
two scatter-add subset steps; above 0 in training, two Bernoulli
drop-path residual adds (both through `self.drop_path1`); otherwise two
plain residual adds. -/
def Block.forwardDispatch (training : Bool) (sample_drop_ratio : ℚ) (b : ℕ)
    (attnResF ffnResF : (ℕ → ℕ → ℕ → ℚ) → ℕ → ℕ → ℕ → ℚ)
    (perm1 perm2 : ℕ → ℕ) (mask1 mask2 : ℕ → Bool)
    (x : ℕ → ℕ → ℕ → ℚ) : ℕ → ℕ → ℕ → ℚ :=
  if training = true ∧ sample_drop_ratio > 1/10 then
    drop_add_residual_stochastic_depth b
      (drop_add_residual_stochastic_depth b x attnResF sample_drop_ratio perm1)
      ffnResF sample_drop_ratio perm2
  else if training = true ∧ sample_drop_ratio > 0 then
    let x1 := fun bi t c => x bi t c +
      dropPathImpl sample_drop_ratio training mask1 (attnResF x) bi t c
    fun bi t c => x1 bi t c +
      dropPathImpl sample_drop_ratio training mask2 (ffnResF x1) bi t c
  else
    let x1 := fun bi t c => x bi t c + attnResF x bi t c
    fun bi t c => x1 bi t c + ffnResF x1 bi t c

/-! ## Block chunking and intermediate layers (source lines 597-602,
724-736, 852-884)

Transformer blocks are shape-preserving maps on the token state, so a
block list is `List (α → α)` and `nn.Identity()` is `id`.  The
`_get_intermediate_layers_*` functions are modelled on the
already-prepared token state (`prepare_tokens_with_masks` is shared by
both paths).  `blocks_to_take` is an explicit index list (for an integer
`n` the source derives `range(total_block_len - n, total_block_len)`).
The final `assert len(output) == len(blocks_to_take)` becomes an error.
Python's `range(0, depth, chunksize)` has `⌈depth/chunksize⌉` elements
(it raises for `chunksize = 0`; the claims assume `block_chunks ≤ depth`
so that `chunksize ≥ 1`). -/

/-- The chunked block table (source lines 724-733): for each start `i` in
`range(0, depth, chunksize)`, the chunk `[nn.Identity()] * i +
blocks_list[i : i + chunksize]`. -/
def chunkedBlocks {α : Type} (blocks : List (α → α)) (block_chunks : ℕ) :
    List (List (α → α)) :=
  let depth := blocks.length
  let chunksize := depth / block_chunks
  (List.range' 0 ((depth + chunksize - 1) / chunksize) chunksize).map
    (fun i => List.replicate i id ++ (blocks.drop i).take chunksize)

/-- The collecting loop shared by both intermediate-layer functions:
`x = blk(x); if i in blocks_to_take: output.append(x); i += 1` over a
list of blocks, starting from counter `i`.  Returns the final counter,
the final state, and the collected outputs in order. -/
def runCollect {α : Type} : List (α → α) → ℕ → α → List ℕ → ℕ × α × List α
  | [], i, x, _ => (i, x, [])
  | f :: rest, i, x, toTake =>
    let x' := f x
    let r := runCollect rest (i + 1) x' toTake
    (r.1, r.2.1, (if i ∈ toTake then [x'] else []) ++ r.2.2)

/-- `_get_intermediate_layers_not_chunked` (source lines 852-866), after
token preparation. -/
def getIntermediateLayersNotChunked {α : Type} (blocks : List (α → α))
    (x : α) (blocksToTake : List ℕ) : Except String (List α) :=
  let r := runCollect blocks 0 x blocksToTake
  if r.2.2.length = blocksToTake.length then .ok r.2.2
  else .error "not all blocks found"

/-- The chunk loop of `_get_intermediate_layers_chunked`:
`for blk in block_chunk[i:]` with the global counter `i` threaded
through the chunks. -/
def runChunks {α : Type} : List (List (α → α)) → ℕ → α → List ℕ → ℕ × α × List α
  | [], i, x, _ => (i, x, [])
  | ch :: rest, i, x, toTake =>
    let r := runCollect (ch.drop i) i x toTake
    let r' := runChunks rest r.1 r.2.1 toTake
    (r'.1, r'.2.1, r.2.2 ++ r'.2.2)

/-- `_get_intermediate_layers_chunked` (source lines 868-884), after
token preparation. -/
def getIntermediateLayersChunked {α : Type} (chunks : List (List (α → α)))
    (x : α) (blocksToTake : List ℕ) : Except String (List α) :=
  let r := runChunks chunks 0 x blocksToTake
  if r.2.2.length = blocksToTake.length then .ok r.2.2
  else .error "not all blocks found"

/-! ## VisionTransformer assembly and forward (source lines 605-945)

For the end-to-end shape claim the transformer blocks are embedded as
shape-preserving maps on the packed value field (`[b, n, d]` in, same
shape out), which every `Block`/`NestedTensorBlock` on a plain tensor is;
`self.norm` (a LayerNorm) is a per-token substrate map, and `self.head`
is `nn.Identity()`.  `prepare_tokens_with_masks` is embedded for
`masks = None` (the path `forward` takes).  Note the source unpacks
`_, _, w, h = x.shape`, so its `w` is the image height and its `h` the
image width; the embedding passes them in that same order. -/

/-- The model state of a `VisionTransformer`. -/
structure VisionTransformerM where
  num_register_tokens : ℕ
  patch_embed : PatchEmbed
  cls_token : ℕ → ℚ            -- [1, 1, embed_dim]
  register_tokens : ℕ → ℕ → ℚ  -- [1, num_register_tokens, embed_dim]
  pos : PosEnc
  blocks : List ((ℕ → ℕ → ℕ → ℚ) → ℕ → ℕ → ℕ → ℚ)
  normF : (ℕ → ℚ) → ℕ → ℚ

/-- `x[:, a:b]` on the token dimension (`b = none` for an open slice),
with PyTorch's clamping slice semantics. -/
def sliceTokens (t : Tensor3) (a : ℕ) (b? : Option ℕ) : Tensor3 :=
  let start := min a t.n
  let stop := min (b?.getD t.n) t.n
  { b := t.b, n := stop - start, d := t.d
    val := fun bi tok dd => t.val bi (start + tok) dd }

/-- `prepare_tokens_with_masks(x, masks=None)` (source lines 790-811):
patch embedding, class-token concatenation, positional-encoding addition
(broadcast over the batch; shapes must agree), register-token insertion
after the class token. -/
def VisionTransformerM.prepareTokens (m : VisionTransformerM)
    (interpF : Bool → (ℕ → ℕ → ℕ → ℚ) → ℕ → ℕ → ℕ → ℕ → ℕ → ℕ → ℚ)
    (x : Tensor4) : Except String Tensor3 :=
  let w := x.h  -- source: `_, _, w, h = x.shape`
  let h := x.w
  match m.patch_embed.forward x with
  | .error e => .error e
  | .ok (.spatial _) => .error "patch embedding did not flatten"
  | .ok (.flat t) =>
    let withCls : Tensor3 :=
      { b := t.b, n := t.n + 1, d := t.d
        val := fun bi tok dd =>
          if tok = 0 then m.cls_token dd else t.val bi (tok - 1) dd }
    match m.pos.interpolatePosEncoding interpF (withCls.n - 1) w h with
    | .error e => .error e
    | .ok pos =>
      if pos.n ≠ withCls.n ∨ pos.d ≠ withCls.d then
        .error "positional table does not broadcast against the tokens"
      else
        let withPos : Tensor3 :=
          { b := withCls.b, n := withCls.n, d := withCls.d
            val := fun bi tok dd => withCls.val bi tok dd + pos.val 0 tok dd }
        if m.num_register_tokens = 0 then .ok withPos
        else
          .ok { b := withPos.b
                n := withPos.n + m.num_register_tokens
                d := withPos.d
                val := fun bi tok dd =>
                  if tok = 0 then withPos.val bi 0 dd
                  else if tok < 1 + m.num_register_tokens then
                    m.register_tokens (tok - 1) dd
                  else withPos.val bi (tok - m.num_register_tokens) dd }

/-- `forward(*args, is_training=False)` on a single image batch (source
lines 834-850, 916-923): prepare tokens, run the block stack, final norm,
and return the inference 3-tuple
`(head(x_norm[:, :1]), head(x_norm[:, 1:R+1]), x_norm[:, R+1:])` with the
identity head. -/
def VisionTransformerM.forward (m : VisionTransformerM)
    (interpF : Bool → (ℕ → ℕ → ℕ → ℚ) → ℕ → ℕ → ℕ → ℕ → ℕ → ℕ → ℚ)
    (x : Tensor4) : Except String (Tensor3 × Tensor3 × Tensor3) :=
  match m.prepareTokens interpF x with
  | .error e => .error e
  | .ok t =>
    let after := m.blocks.foldl (fun v blk => blk v) t.val
    let x_norm : Tensor3 :=
      { b := t.b, n := t.n, d := t.d
        val := fun bi tok => m.normF (after bi tok) }
    .ok (sliceTokens x_norm 0 (some 1),
         sliceTokens x_norm 1 (some (m.num_register_tokens + 1)),
         sliceTokens x_norm (m.num_register_tokens + 1) none)

/-- `vit_small(patch_size=14)` with the default image size 224 (source
lines 934-945): embed_dim 384, one register token, a learned positional
table of `16·16 + 1` rows; the twelve blocks and all learned weights are
the remaining free state. -/
def vit_small (conv_w : ℕ → ℕ → ℕ → ℕ → ℚ) (conv_b : ℕ → ℚ)
    (cls : ℕ → ℚ) (pos_vals : ℕ → ℕ → ℕ → ℚ) (reg_vals : ℕ → ℕ → ℚ)
    (normF : (ℕ → ℚ) → ℕ → ℚ)
    (blocks : List ((ℕ → ℕ → ℕ → ℚ) → ℕ → ℕ → ℕ → ℚ)) : VisionTransformerM :=
  { num_register_tokens := 1
    patch_embed :=
      { patch_h := 14, patch_w := 14, in_chans := 3, embed_dim := 384
        proj_weight := conv_w, proj_bias := conv_b, flatten_embedding := true }
    cls_token := cls
    register_tokens := reg_vals
    pos :=
      { patch_size := 14, interpolate_offset := 1/10
        interpolate_antialias := false
        pos_embed := { b := 1, n := 16 * 16 + 1, d := 384, val := pos_vals } }
    blocks := blocks
    normF := normF }

/-- The shape triple of an inference-mode forward result. -/
def forwardShapes : Except String (Tensor3 × Tensor3 × Tensor3) → List (List ℕ)
  | .ok (t1, t2, t3) =>
    [[t1.b, t1.n, t1.d], [t2.b, t2.n, t2.d], [t3.b, t3.n, t3.d]]
  | .error _ => []

end ImageEncoder

namespace Fixtures

open ImageEncoder

/-- A tiny concrete patch-embedding module used to instantiate theorems:
2×2 patches, 1 input channel, embedding dimension 3, zero weights,
flattening on. -/
def pe0 : PatchEmbed :=
  { patch_h := 2, patch_w := 2, in_chans := 1, embed_dim := 3
    proj_weight := fun _ _ _ _ => 1, proj_bias := fun _ => 0
    flatten_embedding := true }

/-- A concrete 1×1×4×6 input image. -/
def x0 : Tensor4 := { b := 1, c := 1, h := 4, w := 6, val := fun _ _ i j => (i + j : ℚ) }

/-- A concrete 1×1×4×5 input image whose width is not a multiple of 2. -/
def x1 : Tensor4 := { b := 1, c := 1, h := 4, w := 5, val := fun _ _ _ _ => 0 }

/-- A positional-encoding state for a square 14×14 reference grid
(patch 16, reference resolution 224): table `[1, 197, 8]`. -/
def posEncSquare : PosEnc :=
  { patch_size := 16, interpolate_offset := 1/10, interpolate_antialias := false
    pos_embed := { b := 1, n := 197, d := 8, val := fun _ t d => (t * 10 + d : ℚ) } }

/-- A positional-encoding state whose reference patch grid is NOT square:
98 patch positions (a 14×7 grid), table `[1, 99, 8]`. -/
def posEncNonSquare : PosEnc :=
  { patch_size := 16, interpolate_offset := 1/10, interpolate_antialias := false
    pos_embed := { b := 1, n := 99, d := 8, val := fun _ t d => (t * 10 + d : ℚ) } }

/-- A trivial stand-in for the substrate's bilinear resampling kernel. -/
def interpF0 : Bool → (ℕ → ℕ → ℕ → ℚ) → ℕ → ℕ → ℕ → ℕ → ℕ → ℕ → ℚ :=
  fun _ g _ _ _ d a b => g d a b

/-- A tiny concrete transformer block (dimension 1, one head). -/
def blk0 : BlockW :=
  { attn := { dim := 1, num_heads := 1, scale := 1
              qkv_w := fun _ _ => 1, qkv_b := fun _ => 0
              proj_w := fun _ _ => 1, proj_b := fun _ => 0 }
    norm1 := id, norm2 := id
    ls1 := fun _ => 1, ls2 := fun _ => 1
    mlp := { in_features := 1, hidden_features := 1
             fc1_w := fun _ _ => 1, fc1_b := fun _ => 0
             fc2_w := fun _ _ => 1, fc2_b := fun _ => 0 }
    act := id }

/-- A concrete one-sample batch list: a single sequence of one token. -/
def xl0 : List Seq1 := [⟨1, fun _ _ => 2⟩]

end Fixtures

namespace Claims

open ImageEncoder

/-- C8: the fused SwiGLU hidden width is `(⌊hidden·2/3⌋ + 7) / 8 * 8`,
i.e. `⌊hidden·2/3⌋` rounded up to the next multiple of 8: the result is a
multiple of 8, at least `⌊hidden·2/3⌋`, and no smaller multiple of 8 is. -/
theorem c8_swiglu_hidden_width (hidden : ℕ) :
    swiGLUFFNFusedHidden hidden = (2 * hidden / 3 + 7) / 8 * 8 ∧
    8 ∣ swiGLUFFNFusedHidden hidden ∧
    2 * hidden / 3 ≤ swiGLUFFNFusedHidden hidden ∧
    ∀ m, 8 ∣ m → 2 * hidden / 3 ≤ m → swiGLUFFNFusedHidden hidden ≤ m := by
  refine ⟨rfl, ⟨(2 * hidden / 3 + 7) / 8, (Nat.mul_comm _ 8)⟩, ?_, ?_⟩
  · unfold swiGLUFFNFusedHidden
    omega
  · intro m hm hle
    obtain ⟨k, rfl⟩ := hm
    unfold swiGLUFFNFusedHidden
    have : 2 * hidden / 3 + 7 < 8 * (k + 1) := by omega
    have h2 : (2 * hidden / 3 + 7) / 8 ≤ k := by omega
    calc (2 * hidden / 3 + 7) / 8 * 8 ≤ k * 8 := Nat.mul_le_mul_right 8 h2
    _ = 8 * k := Nat.mul_comm k 8

/-- Appending a fresh dict entry preserves every stored binding. -/
theorem cacheFind_append_of_some (c : ImageEncoder.AttnBiasCache)
    (e : List (ℕ × ℕ) × ImageEncoder.BlockDiagonalMask)
    (k : List (ℕ × ℕ)) (v : ImageEncoder.BlockDiagonalMask)
    (h : ImageEncoder.cacheFind c k = some v) :
    ImageEncoder.cacheFind (c ++ [e]) k = some v := by
  induction c with
  | nil => simp [ImageEncoder.cacheFind] at h
  | cons hd tl ih =>
    rw [List.cons_append]
    by_cases hk : hd.1 = k
    · simpa [ImageEncoder.cacheFind, hk] using
        (by simpa [ImageEncoder.cacheFind, hk] using h : some hd.2 = some v)
    · have h' : ImageEncoder.cacheFind tl k = some v := by
        simpa [ImageEncoder.cacheFind, hk] using h
      simpa [ImageEncoder.cacheFind, hk] using ih h'

/-- Looking up the key of a freshly appended entry, absent before, finds
the new entry. -/
theorem cacheFind_append_self (c : ImageEncoder.AttnBiasCache)
    (k : List (ℕ × ℕ)) (v : ImageEncoder.BlockDiagonalMask)
    (h : ImageEncoder.cacheFind c k = none) :
    ImageEncoder.cacheFind (c ++ [(k, v)]) k = some v := by
  induction c with
  | nil => simp [ImageEncoder.cacheFind]
  | cons hd tl ih =>
    by_cases hk : hd.1 = k
    · simp [ImageEncoder.cacheFind, hk] at h
    · have h' : ImageEncoder.cacheFind tl k = none := by
        simpa [ImageEncoder.cacheFind, hk] using h
      simpa [ImageEncoder.cacheFind, hk] using ih h'

/-- On a cache hit, `get_attn_bias_and_cat` leaves the cache untouched and
returns the stored mask. -/
theorem getAttnBiasCached_of_found (cache : ImageEncoder.AttnBiasCache)
    (xshapes : List (ℕ × ℕ)) (branges : Option (List ℕ))
    (v : ImageEncoder.BlockDiagonalMask)
    (h : ImageEncoder.cacheFind cache (ImageEncoder.allShapesKey xshapes branges)
      = some v) :
    ImageEncoder.getAttnBiasCached cache xshapes branges = (cache, v) := by
  simp [ImageEncoder.getAttnBiasCached, h]

/-- On a cache miss, `get_attn_bias_and_cat` appends exactly one entry,
the freshly constructed mask under the shape-signature key, and returns
that mask. -/
theorem getAttnBiasCached_of_missing (cache : ImageEncoder.AttnBiasCache)
    (xshapes : List (ℕ × ℕ)) (branges : Option (List ℕ))
    (h : ImageEncoder.cacheFind cache (ImageEncoder.allShapesKey xshapes branges)
      = none) :
    ImageEncoder.getAttnBiasCached cache xshapes branges =
      (cache ++ [(ImageEncoder.allShapesKey xshapes branges,
                  ImageEncoder.freshMask xshapes branges)],
       ImageEncoder.freshMask xshapes branges) := by
  have hfind := cacheFind_append_self cache (ImageEncoder.allShapesKey xshapes branges)
    (ImageEncoder.freshMask xshapes branges) h
  simp [ImageEncoder.getAttnBiasCached, h, hfind]

/-- C9: the attention-bias cache is append-only and construct-once per
shape signature: a call leaves all previously stored entries unchanged;
if the signature (the zip of batch sizes and sequence lengths) is already
present the cache is untouched and the stored mask is returned; if it is
absent exactly one entry is appended, holding the freshly constructed
block-diagonal mask, and a repeated call with the same shapes returns
that same mask without further growth. -/
theorem c9_attn_bias_cache_append_only (cache : ImageEncoder.AttnBiasCache)
    (xshapes : List (ℕ × ℕ)) (branges : Option (List ℕ)) :
    (∀ k v, ImageEncoder.cacheFind cache k = some v →
      ImageEncoder.cacheFind (ImageEncoder.getAttnBiasCached cache xshapes branges).1 k
        = some v) ∧
    (∀ v0, ImageEncoder.cacheFind cache (ImageEncoder.allShapesKey xshapes branges)
        = some v0 →
      (ImageEncoder.getAttnBiasCached cache xshapes branges).1 = cache ∧
      (ImageEncoder.getAttnBiasCached cache xshapes branges).2 = v0) ∧
    (ImageEncoder.cacheFind cache (ImageEncoder.allShapesKey xshapes branges)
        = none →
      (ImageEncoder.getAttnBiasCached cache xshapes branges).1 =
        cache ++ [(ImageEncoder.allShapesKey xshapes branges,
                   ImageEncoder.freshMask xshapes branges)] ∧
      (ImageEncoder.getAttnBiasCached cache xshapes branges).2 =
        ImageEncoder.freshMask xshapes branges) ∧
    (ImageEncoder.getAttnBiasCached
        (ImageEncoder.getAttnBiasCached cache xshapes branges).1 xshapes branges =
      ((ImageEncoder.getAttnBiasCached cache xshapes branges).1,
       (ImageEncoder.getAttnBiasCached cache xshapes branges).2)) := by
  rcases hc : ImageEncoder.cacheFind cache (ImageEncoder.allShapesKey xshapes branges)
    with _ | v
  · -- signature absent: one entry is appended
    have hmiss := getAttnBiasCached_of_missing cache xshapes branges hc
    have hfind := cacheFind_append_self cache
      (ImageEncoder.allShapesKey xshapes branges)
      (ImageEncoder.freshMask xshapes branges) hc
    refine ⟨?_, ?_, fun _ => ⟨by rw [hmiss], by rw [hmiss]⟩, ?_⟩
    · intro k v hv
      rw [hmiss]
      exact cacheFind_append_of_some cache _ k v hv
    · intro v0 hv0
      exact absurd hv0 (by simp)
    · rw [hmiss]
      exact getAttnBiasCached_of_found _ xshapes branges _ hfind
  · -- signature present: cache untouched, stored mask returned
    have hhit := getAttnBiasCached_of_found cache xshapes branges v hc
    refine ⟨?_, ?_, ?_, ?_⟩
    · intro k v' hv'
      rw [hhit]; exact hv'
    · intro v0 hv0
      obtain rfl : v = v0 := Option.some_inj.mp hv0
      exact ⟨by rw [hhit], by rw [hhit]⟩
    · intro habs
      exact absurd habs (by simp)
    · rw [hhit]
      exact hhit

/-- C9 witness: starting from the empty cache with two input tensors of
shapes `(1, 3)` and `(1, 2)`, absence of the signature appends exactly the
freshly built mask (seqlens `[3, 2]`). -/
theorem c9_attn_bias_cache_append_only_witness :
    (ImageEncoder.getAttnBiasCached [] [(1, 3), (1, 2)] none).1 =
      [([(1, 3), (1, 2)],
        { seqlens := [3, 2], batch_sizes := [1, 1] })] ∧
    (ImageEncoder.getAttnBiasCached [] [(1, 3), (1, 2)] none).2 =
      { seqlens := [3, 2], batch_sizes := [1, 1] } := by
  have h := (c9_attn_bias_cache_append_only [] [(1, 3), (1, 2)] none).2.2.1
    (by decide)
  exact ⟨by rw [h.1]; rfl, by rw [h.2]; rfl⟩

/-- C1 counterexample: on a batch of two 224×224×3 images, the inference
forward of `vit_small` (patch 14, embed 384, depth 12, one register
token) returns a 3-tuple whose first two elements have shape
`[2, 1, 384]` — the `x_norm[:, :1]` slice keeps the token dimension — and
`[2, 1, 384]` is not the claimed `[2, 384]`. -/
theorem c1_vit_small_shape_counterexample :
    ImageEncoder.forwardShapes
        ((ImageEncoder.vit_small (fun _ _ _ _ => 0) (fun _ => 0) (fun _ => 0)
          (fun _ _ _ => 0) (fun _ _ => 0) (fun v => v)
          (List.replicate 12 (fun v => v))).forward Fixtures.interpF0
          { b := 2, c := 3, h := 224, w := 224, val := fun _ _ _ _ => 0 }) =
      [[2, 1, 384], [2, 1, 384], [2, 256, 384]] ∧
    ([2, 1, 384] : List ℕ) ≠ [2, 384] :=
  ⟨rfl, by decide⟩

/-- C1 (amended): for a batch of 224×224×3 images through the inference
forward of `vit_small` (patch 14, embed 384, depth 12, one register
token), the result is a 3-tuple whose first two elements have shape
`[batch, 1, 384]` and whose third has shape `[batch, 256, 384]`. -/
theorem c1_vit_small_forward_shapes (b : ℕ)
    (conv_w : ℕ → ℕ → ℕ → ℕ → ℚ) (conv_b : ℕ → ℚ) (cls : ℕ → ℚ)
    (pos_vals : ℕ → ℕ → ℕ → ℚ) (reg_vals : ℕ → ℕ → ℚ)
    (normF : (ℕ → ℚ) → ℕ → ℚ)
    (blocks : List ((ℕ → ℕ → ℕ → ℚ) → ℕ → ℕ → ℕ → ℚ))
    (interpF : Bool → (ℕ → ℕ → ℕ → ℚ) → ℕ → ℕ → ℕ → ℕ → ℕ → ℕ → ℚ)
    (xval : ℕ → ℕ → ℕ → ℕ → ℚ) (hdepth : blocks.length = 12) :
    ImageEncoder.forwardShapes
        ((ImageEncoder.vit_small conv_w conv_b cls pos_vals reg_vals normF
          blocks).forward interpF
          { b := b, c := 3, h := 224, w := 224, val := xval }) =
      [[b, 1, 384], [b, 1, 384], [b, 256, 384]] := by
  simp only [ImageEncoder.vit_small, ImageEncoder.VisionTransformerM.forward,
    ImageEncoder.VisionTransformerM.prepareTokens, ImageEncoder.PatchEmbed.forward,
    ImageEncoder.PatchEmbed.proj, ImageEncoder.PosEnc.interpolatePosEncoding,
    ImageEncoder.sliceTokens, ImageEncoder.forwardShapes]
  norm_num

/-- C1 witness: the amended shape statement at a concrete batch of two
zero images and twelve identity blocks. -/
theorem c1_vit_small_forward_shapes_witness :
    ImageEncoder.forwardShapes
        ((ImageEncoder.vit_small (fun _ _ _ _ => 1) (fun _ => 0) (fun _ => 0)
          (fun _ _ _ => 0) (fun _ _ => 0) (fun v => v)
          (List.replicate 12 (fun v => v))).forward Fixtures.interpF0
          { b := 3, c := 3, h := 224, w := 224, val := fun _ _ _ _ => 0 }) =
      [[3, 1, 384], [3, 1, 384], [3, 256, 384]] :=
  c1_vit_small_forward_shapes 3 (fun _ _ _ _ => 1) (fun _ => 0) (fun _ => 0)
    (fun _ _ _ => 0) (fun _ _ => 0) (fun v => v)
    (List.replicate 12 (fun v => v)) Fixtures.interpF0 (fun _ _ _ _ => 0) rfl

section NestedLemmas

open ImageEncoder

/-- With all batch sizes 1, the seqlens of the block-diagonal mask are
exactly the per-sample token counts. -/
theorem mkSeqlens_ones (xl : List Seq1) :
    mkSeqlens (xl.map fun _ => 1) (xl.map Seq1.n) = xl.map Seq1.n := by
  induction xl with
  | nil => rfl
  | cons s rest ih => simp [mkSeqlens, List.map_cons, List.zip_cons_cons] at ih ⊢; exact ih

/-- Reading the packed sequence inside its first sample. -/
theorem catVal_head (s : Seq1) (rest : List Seq1) (p c : ℕ) (hp : p < s.n) :
    catVal (s :: rest) p c = s.val p c := by
  simp [catVal, hp]

/-- Reading the packed sequence past its first sample. -/
theorem catVal_tail (s : Seq1) (rest : List Seq1) (p c : ℕ) (hp : s.n ≤ p) :
    catVal (s :: rest) p c = catVal rest (p - s.n) c := by
  simp [catVal, Nat.not_lt.mpr hp]

/-- A per-token map commutes with packing. -/
theorem catVal_token_map (g : (ℕ → ℚ) → (ℕ → ℚ)) (xl : List Seq1) (p c : ℕ)
    (hp : p < (xl.map Seq1.n).sum) :
    catVal (xl.map fun s => ⟨s.n, fun t => g (s.val t)⟩) p c =
      g (catVal xl p) c := by
  induction xl generalizing p with
  | nil => simp at hp
  | cons s rest ih =>
    by_cases hps : p < s.n
    · have hfun : catVal (s :: rest) p = s.val p := funext fun cc => catVal_head s rest p cc hps
      simp [catVal, hps, hfun]
    · have hle : s.n ≤ p := Nat.not_lt.mp hps
      have hfun : catVal (s :: rest) p = catVal rest (p - s.n) :=
        funext fun cc => catVal_tail s rest p cc hle
      simp only [List.map_cons, catVal, Nat.not_lt.mpr hle, if_false, hfun]
      refine ih (p - s.n) ?_
      simp only [List.map_cons, List.sum_cons] at hp
      omega

/-- Pointwise residual combination of a packed sequence with an
`n`-preserving per-sample transform of it commutes with packing. -/
theorem catVal_add_mul (xl : List Seq1) (F : Seq1 → Seq1)
    (hF : ∀ s, (F s).n = s.n) (γ : ℕ → ℚ) (p c : ℕ)
    (hp : p < (xl.map Seq1.n).sum) :
    catVal xl p c + γ c * catVal (xl.map F) p c =
      catVal (xl.map fun s => ⟨s.n, fun t cc => s.val t cc + γ cc * (F s).val t cc⟩) p c := by
  induction xl generalizing p with
  | nil => simp at hp
  | cons s rest ih =>
    by_cases hps : p < s.n
    · simp [catVal, hps, hF s]
    · have hle : s.n ≤ p := Nat.not_lt.mp hps
      have hps' : ¬ p < (F s).n := by rw [hF]; exact hps
      simp only [List.map_cons, catVal, hps, hps', if_false, hF s]
      refine ih (p - s.n) ?_
      simp only [List.map_cons, List.sum_cons] at hp
      omega

/-- `memEffCtx` only reads its input at token positions below `n`. -/
theorem memEffCtx_congr (A : AttentionW) (expF : ℚ → ℚ) (xscale : ℚ)
    (n hd : ℕ) (allowed : ℕ → ℕ → Bool) (x y : ℕ → ℕ → ℚ) (t hh e : ℕ)
    (ht : t < n) (hxy : ∀ u, u < n → x u = y u) :
    memEffCtx A expF xscale n hd allowed x t hh e =
      memEffCtx A expF xscale n hd allowed y t hh e := by
  unfold memEffCtx
  have hden : ∑ t3 ∈ (Finset.range n).filter (fun t3 => allowed t t3),
      expF (attnLogit A xscale hd x hh t t3) =
      ∑ t3 ∈ (Finset.range n).filter (fun t3 => allowed t t3),
        expF (attnLogit A xscale hd y hh t t3) := by
    refine Finset.sum_congr rfl fun t3 ht3 => ?_
    have ht3' : t3 < n := Finset.mem_range.mp (Finset.mem_filter.mp ht3).1
    simp only [attnLogit, hxy t ht, hxy t3 ht3']
  refine Finset.sum_congr rfl fun t2 ht2 => ?_
  have ht2' : t2 < n := Finset.mem_range.mp (Finset.mem_filter.mp ht2).1
  rw [hden]
  simp only [attnLogit, attnV, hxy t ht, hxy t2 ht2']

/-- `memEffAttnVal` only reads its input at token positions below `n`:
the query row `p < n` and the key/value rows of the range. -/
theorem memEffAttnVal_congr (A : AttentionW) (expF : ℚ → ℚ) (xscale : ℚ)
    (n d : ℕ) (bias : Option BlockDiagonalMask) (x y : ℕ → ℕ → ℚ) (p c : ℕ)
    (hp : p < n) (hxy : ∀ t, t < n → x t = y t) :
    memEffAttnVal A expF xscale n d bias x p c =
      memEffAttnVal A expF xscale n d bias y p c := by
  unfold memEffAttnVal linearTok
  congr 1
  refine Finset.sum_congr rfl fun i _ => ?_
  congr 1
  show memEffCtx A expF xscale n (d / A.num_heads) (maskAllowed bias) x p _ _ =
    memEffCtx A expF xscale n (d / A.num_heads) (maskAllowed bias) y p _ _
  exact memEffCtx_congr A expF xscale n (d / A.num_heads) (maskAllowed bias)
    x y p _ _ hp hxy

/-- For a query in the first block, block-diagonally masked attention
over the packed sequence is dense attention over the first block. -/
theorem memEffCtx_mask_head (A : ImageEncoder.AttentionW) (expF : ℚ → ℚ)
    (xscale : ℚ) (n M hd : ℕ) (ns : List ℕ) (x : ℕ → ℕ → ℚ) (t hh e : ℕ)
    (ht : t < n) :
    memEffCtx A expF xscale (n + M) hd (sameBlock (n :: ns)) x t hh e =
      memEffCtx A expF xscale n hd (fun _ _ => true) x t hh e := by
  unfold memEffCtx
  have hfil : (Finset.range (n + M)).filter
      (fun q => sameBlock (n :: ns) t q = true) = Finset.range n := by
    ext q
    simp only [Finset.mem_filter, Finset.mem_range, sameBlock, ht, if_true,
      decide_eq_true_eq]
    omega
  have hfil2 : (Finset.range n).filter (fun q => (true : Bool) = true) =
      Finset.range n := by simp
  rw [hfil, hfil2]

/-- For a query past the first block, block-diagonally masked attention
over the packed sequence is the masked attention of the remaining blocks
on the shifted sequence. -/
theorem memEffCtx_mask_tail (A : ImageEncoder.AttentionW) (expF : ℚ → ℚ)
    (xscale : ℚ) (n M hd : ℕ) (ns : List ℕ) (x : ℕ → ℕ → ℚ) (t hh e : ℕ)
    (ht : n ≤ t) :
    memEffCtx A expF xscale (n + M) hd (sameBlock (n :: ns)) x t hh e =
      memEffCtx A expF xscale M hd (sameBlock ns) (fun u => x (n + u)) (t - n) hh e := by
  unfold memEffCtx
  have key : ∀ g : ℕ → ℚ,
      ∑ q ∈ (Finset.range (n + M)).filter (fun q => sameBlock (n :: ns) t q = true),
        g q =
      ∑ q ∈ (Finset.range M).filter (fun q => sameBlock ns (t - n) q = true),
        g (n + q) := by
    intro g
    rw [Finset.sum_filter, Finset.sum_filter, Finset.sum_range_add]
    have h1 : ∑ q ∈ Finset.range n,
        (if sameBlock (n :: ns) t q = true then g q else 0) = 0 := by
      refine Finset.sum_eq_zero fun q hq => ?_
      have hqn : q < n := Finset.mem_range.mp hq
      have hsb : sameBlock (n :: ns) t q = false := by
        simp [sameBlock, Nat.not_lt.mpr ht, Nat.not_le.mpr hqn]
      simp [hsb]
    rw [h1, zero_add]
    refine Finset.sum_congr rfl fun q _ => ?_
    have hsb : sameBlock (n :: ns) t (n + q) = sameBlock ns (t - n) q := by
      simp [sameBlock, Nat.not_lt.mpr ht, Nat.add_sub_cancel_left]
    rw [hsb]
  have hden := key (fun t3 => expF (ImageEncoder.attnLogit A xscale hd x hh t t3))
  have hxt : (fun v => x (n + v)) (t - n) = x t := by
    show x (n + (t - n)) = x t
    rw [Nat.add_sub_cancel' ht]
  have hlog : ∀ u, ImageEncoder.attnLogit A xscale hd x hh t (n + u) =
      ImageEncoder.attnLogit A xscale hd (fun v => x (n + v)) hh (t - n) u := by
    intro u
    simp only [ImageEncoder.attnLogit, hxt]
  have hv : ∀ u, ImageEncoder.attnV A hd x (n + u) hh e =
      ImageEncoder.attnV A hd (fun v => x (n + v)) u hh e := fun u => rfl
  rw [key]
  refine Finset.sum_congr rfl fun t2 _ => ?_
  rw [hden]
  simp only [hlog, hv]

/-- `memEffAttnVal_congr` packaged for the head-block case. -/
theorem memEffAttnVal_mask_head (A : ImageEncoder.AttentionW) (expF : ℚ → ℚ)
    (xscale : ℚ) (n M d : ℕ) (ns bs : List ℕ) (x : ℕ → ℕ → ℚ) (p c : ℕ)
    (hp : p < n) :
    memEffAttnVal A expF xscale (n + M) d (some ⟨n :: ns, bs⟩) x p c =
      memEffAttnVal A expF xscale n d none x p c := by
  unfold memEffAttnVal linearTok
  congr 1
  refine Finset.sum_congr rfl fun i _ => ?_
  congr 1
  show memEffCtx A expF xscale (n + M) (d / A.num_heads) (sameBlock (n :: ns)) x p _ _ =
    memEffCtx A expF xscale n (d / A.num_heads) (fun _ _ => true) x p _ _
  exact memEffCtx_mask_head A expF xscale n M (d / A.num_heads) ns x p _ _ hp

/-- Masked attention restricted past the first block, at the level of the
full memory-efficient attention output. -/
theorem memEffAttnVal_mask_tail (A : ImageEncoder.AttentionW) (expF : ℚ → ℚ)
    (xscale : ℚ) (n M d : ℕ) (ns bs : List ℕ) (x : ℕ → ℕ → ℚ) (p c : ℕ)
    (hp : n ≤ p) :
    memEffAttnVal A expF xscale (n + M) d (some ⟨n :: ns, bs⟩) x p c =
      memEffAttnVal A expF xscale M d (some ⟨ns, bs⟩) (fun u => x (n + u)) (p - n) c := by
  unfold memEffAttnVal linearTok
  congr 1
  refine Finset.sum_congr rfl fun i _ => ?_
  congr 1
  show memEffCtx A expF xscale (n + M) (d / A.num_heads) (sameBlock (n :: ns)) x p _ _ =
    memEffCtx A expF xscale M (d / A.num_heads) (sameBlock ns) (fun u => x (n + u)) (p - n) _ _
  exact memEffCtx_mask_tail A expF xscale n M (d / A.num_heads) ns x p _ _ hp

/-- Block-diagonally masked attention over a packed list of samples
computes, at every position, dense attention of the sample containing
that position: the packing prevents cross-sample attention. -/
theorem memEffAttnVal_blockdiag (A : ImageEncoder.AttentionW) (expF : ℚ → ℚ)
    (xscale : ℚ) (d : ℕ) (xl : List Seq1) (bs : List ℕ) (p c : ℕ)
    (hp : p < (xl.map Seq1.n).sum) :
    memEffAttnVal A expF xscale (xl.map Seq1.n).sum d
        (some ⟨xl.map Seq1.n, bs⟩) (catVal xl) p c =
      catVal (xl.map fun s =>
        ⟨s.n, memEffAttnVal A expF xscale s.n d none s.val⟩) p c := by
  induction xl generalizing p with
  | nil => simp at hp
  | cons s rest ih =>
    simp only [List.map_cons, List.sum_cons] at hp ⊢
    by_cases hps : p < s.n
    · rw [memEffAttnVal_mask_head A expF xscale s.n ((rest.map Seq1.n).sum) d
        (rest.map Seq1.n) bs (catVal (s :: rest)) p c hps]
      rw [memEffAttnVal_congr A expF xscale s.n d none (catVal (s :: rest)) s.val p c
        hps (fun t htn => funext fun cc => catVal_head s rest t cc htn)]
      exact (catVal_head ⟨s.n, memEffAttnVal A expF xscale s.n d none s.val⟩ _ p c hps).symm
    · have hle : s.n ≤ p := Nat.not_lt.mp hps
      rw [memEffAttnVal_mask_tail A expF xscale s.n ((rest.map Seq1.n).sum) d
        (rest.map Seq1.n) bs (catVal (s :: rest)) p c hle]
      have hshift : (fun u => catVal (s :: rest) (s.n + u)) = catVal rest := by
        funext u cc
        rw [catVal_tail s rest (s.n + u) cc (Nat.le_add_right _ _), Nat.add_sub_cancel_left]
      rw [hshift, ih (p - s.n) (by omega)]
      exact (catVal_tail ⟨s.n, memEffAttnVal A expF xscale s.n d none s.val⟩ _ p c hle).symm

/-- Splitting preserves the announced lengths. -/
theorem splitCat_map_n (ns : List ℕ) (f : ℕ → ℕ → ℚ) :
    (splitCat ns f).map Seq1.n = ns := by
  induction ns generalizing f with
  | nil => rfl
  | cons n rest ih => simp [splitCat, ih]

/-- If the packed field agrees with the packing of a list of sequences of
the same lengths, then splitting it recovers that list sample by sample,
within each sample's token range. -/
theorem splitCat_getD_val (ns : List ℕ) (f : ℕ → ℕ → ℚ) (ys : List Seq1)
    (hlen : ys.map Seq1.n = ns)
    (hval : ∀ p cc, p < ns.sum → f p cc = catVal ys p cc) :
    ∀ i p cc, i < ns.length → p < (ys.getD i default).n →
      ((splitCat ns f).getD i default).val p cc = (ys.getD i default).val p cc := by
  induction ns generalizing f ys with
  | nil => intro i p cc hi _; simp at hi
  | cons n rest ih =>
    intro i p cc hi hpn
    cases ys with
    | nil => simp at hlen
    | cons s ysrest =>
      simp only [List.map_cons, List.cons.injEq] at hlen
      obtain ⟨hsn, hrest⟩ := hlen
      subst hsn
      cases i with
      | zero =>
        show f p cc = s.val p cc
        have hpn' : p < s.n := hpn
        rw [hval p cc (by simp only [List.sum_cons]; omega)]
        exact catVal_head s ysrest p cc hpn'
      | succ j =>
        refine ih (fun q => f (s.n + q)) ysrest hrest ?_ j p cc (by simpa using hi) hpn
        intro q cc2 hq
        show f (s.n + q) cc2 = catVal ysrest q cc2
        rw [hval (s.n + q) cc2 (by simp only [List.sum_cons]; omega),
          catVal_tail s ysrest (s.n + q) cc2 (Nat.le_add_right _ _),
          Nat.add_sub_cancel_left]

/-- The packed result of the eval nested forward equals, below the total
token count, the packing of the per-sample single forwards. -/
theorem nestedPacked_eq (blk : BlockW) (expF : ℚ → ℚ) (xscale : ℚ) (d : ℕ)
    (xl : List Seq1) (p c : ℕ) (hp : p < (xl.map Seq1.n).sum) :
    nestedPacked blk expF xscale d xl p c =
      catVal (xl.map (blockForwardEvalSingle blk expF xscale d)) p c := by
  have hnlmap : ((xl.map fun s =>
      (⟨s.n, fun t => blk.norm1 (s.val t)⟩ : Seq1)).map Seq1.n) = xl.map Seq1.n := by
    rw [List.map_map]; rfl
  have hbias : nestedBias xl =
      ⟨xl.map Seq1.n, xl.map fun _ => 1⟩ := by
    unfold nestedBias
    rw [mkSeqlens_ones]
  -- Step A: the masked attention over the packed normalized tokens is the
  -- packing of the per-sample dense attentions of the normalized samples.
  have hA : ∀ q cc, q < (xl.map Seq1.n).sum →
      memEffAttnVal blk.attn expF xscale (xl.map Seq1.n).sum d (some (nestedBias xl))
          (fun p2 => blk.norm1 (catVal xl p2)) q cc =
        catVal (xl.map fun s =>
          (⟨s.n, memEffAttnVal blk.attn expF xscale s.n d none
            (fun u => blk.norm1 (s.val u))⟩ : Seq1)) q cc := by
    intro q cc hq
    rw [hbias, ← hnlmap]
    have hq' : q < (((xl.map fun s =>
        (⟨s.n, fun t => blk.norm1 (s.val t)⟩ : Seq1)).map Seq1.n)).sum := by
      rw [hnlmap]; exact hq
    rw [memEffAttnVal_congr blk.attn expF xscale _ d _
      (fun p2 => blk.norm1 (catVal xl p2))
      (catVal (xl.map fun s => (⟨s.n, fun t => blk.norm1 (s.val t)⟩ : Seq1))) q cc hq'
      (fun t ht => funext fun cc2 =>
        (catVal_token_map blk.norm1 xl t cc2 (by rw [← hnlmap]; exact ht)).symm)]
    rw [memEffAttnVal_blockdiag blk.attn expF xscale d
      (xl.map fun s => (⟨s.n, fun t => blk.norm1 (s.val t)⟩ : Seq1))
      (xl.map fun _ => 1) q cc hq']
    rw [List.map_map]
    rfl
  -- Step B: the first residual update packs per sample.
  have hx1 : ∀ q cc, q < (xl.map Seq1.n).sum →
      (catVal xl q cc +
        blk.ls1 cc *
          memEffAttnVal blk.attn expF xscale (xl.map Seq1.n).sum d
            (some (nestedBias xl)) (fun p2 => blk.norm1 (catVal xl p2)) q cc) =
      catVal (xl.map fun s =>
        (⟨s.n, fun t cc2 => s.val t cc2 +
          blk.ls1 cc2 *
            memEffAttnVal blk.attn expF xscale s.n d none
              (fun u => blk.norm1 (s.val u)) t cc2⟩ : Seq1)) q cc := by
    intro q cc hq
    rw [hA q cc hq]
    exact catVal_add_mul xl
      (fun s => ⟨s.n, memEffAttnVal blk.attn expF xscale s.n d none
        (fun u => blk.norm1 (s.val u))⟩)
      (fun _ => rfl) blk.ls1 q cc hq
  -- Step C: the second residual update is a per-token map of the result of
  -- the first, so it packs as well.
  show (catVal xl p c +
      blk.ls1 c *
        memEffAttnVal blk.attn expF xscale (xl.map Seq1.n).sum d
          (some (nestedBias xl)) (fun p2 => blk.norm1 (catVal xl p2)) p c) +
    blk.ls2 c *
      blk.mlp.forward blk.act
        (blk.norm2 (fun cc => catVal xl p cc +
          blk.ls1 cc *
            memEffAttnVal blk.attn expF xscale (xl.map Seq1.n).sum d
              (some (nestedBias xl)) (fun p2 => blk.norm1 (catVal xl p2)) p cc)) c =
    catVal (xl.map (blockForwardEvalSingle blk expF xscale d)) p c
  have hx1fun : (fun cc => catVal xl p cc +
      blk.ls1 cc *
        memEffAttnVal blk.attn expF xscale (xl.map Seq1.n).sum d
          (some (nestedBias xl)) (fun p2 => blk.norm1 (catVal xl p2)) p cc) =
      catVal (xl.map fun s =>
        (⟨s.n, fun t cc2 => s.val t cc2 +
          blk.ls1 cc2 *
            memEffAttnVal blk.attn expF xscale s.n d none
              (fun u => blk.norm1 (s.val u)) t cc2⟩ : Seq1)) p :=
    funext fun cc => hx1 p cc hp
  rw [hx1 p c hp, hx1fun]
  have hp' : p < (((xl.map fun s =>
      (⟨s.n, fun t cc2 => s.val t cc2 +
        blk.ls1 cc2 *
          memEffAttnVal blk.attn expF xscale s.n d none
            (fun u => blk.norm1 (s.val u)) t cc2⟩ : Seq1)).map Seq1.n)).sum := by
    rw [List.map_map]
    exact hp
  have hmap := catVal_token_map
    (fun tok => fun cc => tok cc + blk.ls2 cc * blk.mlp.forward blk.act (blk.norm2 tok) cc)
    (xl.map fun s =>
      (⟨s.n, fun t cc2 => s.val t cc2 +
        blk.ls1 cc2 *
          memEffAttnVal blk.attn expF xscale s.n d none
            (fun u => blk.norm1 (s.val u)) t cc2⟩ : Seq1)) p c hp'
  refine Eq.trans hmap.symm ?_
  rw [List.map_map]
  rfl

end NestedLemmas

/-- C5: in eval mode, packing a list of single-sample token sequences,
running one `NestedTensorBlock` over the packed sequence with the
block-diagonal attention bias, and splitting at the original boundaries,
yields for every sample exactly the output of running that sample alone
through the same block with the same weights (exact equality in the
rational model). -/
theorem c5_nested_block_equivalence (blk : ImageEncoder.BlockW)
    (expF : ℚ → ℚ) (xscale : ℚ) (d : ℕ) (xl : List ImageEncoder.Seq1) :
    ((ImageEncoder.blockForwardNestedEval blk expF xscale d xl).map
        ImageEncoder.Seq1.n = xl.map ImageEncoder.Seq1.n) ∧
    ∀ i p c, i < xl.length →
      p < ((xl.map (ImageEncoder.blockForwardEvalSingle blk expF xscale d)).getD
        i default).n →
      ((ImageEncoder.blockForwardNestedEval blk expF xscale d xl).getD
        i default).val p c =
      ((xl.map (ImageEncoder.blockForwardEvalSingle blk expF xscale d)).getD
        i default).val p c := by
  constructor
  · exact splitCat_map_n _ _
  · intro i p c hi hpn
    refine splitCat_getD_val (xl.map ImageEncoder.Seq1.n)
      (ImageEncoder.nestedPacked blk expF xscale d xl)
      (xl.map (ImageEncoder.blockForwardEvalSingle blk expF xscale d))
      ?_ ?_ i p c (by simpa using hi) hpn
    · rw [List.map_map]; rfl
    · intro q cc hq
      exact nestedPacked_eq blk expF xscale d xl q cc hq

/-- C5 witness: a concrete one-sample list through the nested path agrees
with the single-sample path at the only token. -/
theorem c5_nested_block_equivalence_witness :
    ((ImageEncoder.blockForwardNestedEval Fixtures.blk0 (fun _ => 1) 1 1
        Fixtures.xl0).getD 0 default).val 0 0 =
    ((Fixtures.xl0.map (ImageEncoder.blockForwardEvalSingle Fixtures.blk0
        (fun _ => 1) 1 1)).getD 0 default).val 0 0 :=
  (c5_nested_block_equivalence Fixtures.blk0 (fun _ => 1) 1 1 Fixtures.xl0).2
    0 0 0 (by decide) (by decide)

/-- Rows not indexed by the scatter are left unchanged by `index_add`. -/
theorem indexAddRows_not_mem (k : ℕ) (x : ℕ → ℕ → ℕ → ℚ) (idx : ℕ → ℕ)
    (res : ℕ → ℕ → ℕ → ℚ) (α : ℚ) (i : ℕ)
    (h : ∀ j, j < k → idx j ≠ i) (t c : ℕ) :
    ImageEncoder.indexAddRows k x idx res α i t c = x i t c := by
  induction k with
  | zero => rfl
  | succ k ih =>
    show ImageEncoder.indexAddRows k x idx res α i t c +
      (if i = idx k then α * res k t c else 0) = x i t c
    rw [if_neg (fun he => h k (Nat.lt_succ_self k) he.symm), add_zero]
    exact ih fun j hj => h j (Nat.lt_succ_of_lt hj)

/-- Each indexed row receives exactly its scaled residual row under
`index_add`, provided the index rows are distinct (as the rows of a
`randperm` prefix are). -/
theorem indexAddRows_mem (k : ℕ) (x : ℕ → ℕ → ℕ → ℚ) (idx : ℕ → ℕ)
    (res : ℕ → ℕ → ℕ → ℚ) (α : ℚ)
    (hinj : ∀ j1 j2, j1 < k → j2 < k → idx j1 = idx j2 → j1 = j2)
    (j : ℕ) (hj : j < k) (t c : ℕ) :
    ImageEncoder.indexAddRows k x idx res α (idx j) t c =
      x (idx j) t c + α * res j t c := by
  induction k with
  | zero => exact absurd hj (Nat.not_lt_zero j)
  | succ k ih =>
    show ImageEncoder.indexAddRows k x idx res α (idx j) t c +
      (if idx j = idx k then α * res k t c else 0) = x (idx j) t c + α * res j t c
    rcases Nat.lt_succ_iff_lt_or_eq.mp hj with hjk | rfl
    · rw [if_neg fun he =>
        Nat.lt_irrefl k (hinj j k (Nat.lt_succ_of_lt hjk) (Nat.lt_succ_self k) he ▸ hjk)]
      rw [add_zero]
      exact ih (fun j1 j2 h1 h2 => hinj j1 j2 (Nat.lt_succ_of_lt h1) (Nat.lt_succ_of_lt h2))
        hjk
    · rw [if_pos rfl]
      rw [indexAddRows_not_mem j x idx res α (idx j)
        (fun j2 hj2 he => Nat.lt_irrefl j
          (hinj j2 j (Nat.lt_succ_of_lt hj2) (Nat.lt_succ_self j) he ▸ hj2)) t c]

/-- In training with a positive rate, `drop_path_impl` keeps each
sample's rows iff its Bernoulli draw does, scaling kept rows by
`1 / keep_prob`. -/
theorem dropPathImpl_char (r : ℚ) (mask : ℕ → Bool) (y : ℕ → ℕ → ℕ → ℚ)
    (hr0 : r ≠ 0) (hpos : 0 < 1 - r) :
    ImageEncoder.dropPathImpl r true mask y =
      fun bi t c => if mask bi then y bi t c / (1 - r) else 0 := by
  unfold ImageEncoder.dropPathImpl
  rw [if_neg (by simp [hr0])]
  show (fun bi t c => y bi t c *
    (if (1 - r : ℚ) > 0 then
        (fun bi2 => (if mask bi2 then (1 : ℚ) else 0) / (1 - r))
      else fun bi2 => if mask bi2 then (1 : ℚ) else 0) bi) = _
  rw [if_pos hpos]
  funext bi t c
  by_cases hm : mask bi <;> simp [hm, div_eq_mul_inv]

/-- C3: the three stochastic-depth regimes of `Block.forward`.
(i) Training with rate above 0.1: the forward is two scatter-add subset
steps.  (ii) Each such step touches exactly the batch rows indexed by the
first `max(⌊b(1-r)⌋, 1)` entries of the permutation — a subset of that
cardinality — adding the gathered-subset residual scaled by
`b / subset_size`, and leaves all other rows unchanged.  (iii) Training
with `0 < r ≤ 0.1`: each sample independently keeps each residual iff its
Bernoulli draw does, scaled by `1/(1-r)`.  (iv) Eval mode, or rate 0: both
residuals are fully applied to every sample. -/
theorem c3_stochastic_depth_regimes (r : ℚ) (b : ℕ)
    (attnResF ffnResF : (ℕ → ℕ → ℕ → ℚ) → ℕ → ℕ → ℕ → ℚ)
    (perm1 perm2 : ℕ → ℕ) (mask1 mask2 : ℕ → Bool) (x : ℕ → ℕ → ℕ → ℚ) :
    (r > 1/10 →
      ImageEncoder.Block.forwardDispatch true r b attnResF ffnResF
          perm1 perm2 mask1 mask2 x =
        ImageEncoder.drop_add_residual_stochastic_depth b
          (ImageEncoder.drop_add_residual_stochastic_depth b x attnResF r perm1)
          ffnResF r perm2) ∧
    (∀ (y : ℕ → ℕ → ℕ → ℚ)
        (resF : (ℕ → ℕ → ℕ → ℚ) → ℕ → ℕ → ℕ → ℚ) (perm : ℕ → ℕ),
      (∀ j1 j2, j1 < ImageEncoder.sampleSubsetSize b r →
        j2 < ImageEncoder.sampleSubsetSize b r → perm j1 = perm j2 → j1 = j2) →
      (ImageEncoder.sampleSubsetSize b r = max (⌊(b : ℚ) * (1 - r)⌋).toNat 1) ∧
      (((Finset.range (ImageEncoder.sampleSubsetSize b r)).image perm).card =
        ImageEncoder.sampleSubsetSize b r) ∧
      (∀ j t c, j < ImageEncoder.sampleSubsetSize b r →
        ImageEncoder.drop_add_residual_stochastic_depth b y resF r perm (perm j) t c =
          y (perm j) t c +
            ((b : ℚ) / (ImageEncoder.sampleSubsetSize b r : ℚ)) *
              resF (fun j2 => y (perm j2)) j t c) ∧
      (∀ i t c, (∀ j, j < ImageEncoder.sampleSubsetSize b r → perm j ≠ i) →
        ImageEncoder.drop_add_residual_stochastic_depth b y resF r perm i t c =
          y i t c)) ∧
    (0 < r → r ≤ 1/10 →
      ∀ bi t c,
        ImageEncoder.Block.forwardDispatch true r b attnResF ffnResF
            perm1 perm2 mask1 mask2 x bi t c =
          (x bi t c + (if mask1 bi then attnResF x bi t c / (1 - r) else 0)) +
            (if mask2 bi then
              ffnResF (fun bi2 t2 c2 => x bi2 t2 c2 +
                (if mask1 bi2 then attnResF x bi2 t2 c2 / (1 - r) else 0)) bi t c /
                (1 - r)
            else 0)) ∧
    ((∀ training : Bool, r = 0 →
      ImageEncoder.Block.forwardDispatch training r b attnResF ffnResF
          perm1 perm2 mask1 mask2 x =
        fun bi t c => (x bi t c + attnResF x bi t c) +
          ffnResF (fun bi2 t2 c2 => x bi2 t2 c2 + attnResF x bi2 t2 c2) bi t c) ∧
     (ImageEncoder.Block.forwardDispatch false r b attnResF ffnResF
          perm1 perm2 mask1 mask2 x =
        fun bi t c => (x bi t c + attnResF x bi t c) +
          ffnResF (fun bi2 t2 c2 => x bi2 t2 c2 + attnResF x bi2 t2 c2) bi t c)) := by
  refine ⟨?_, ?_, ?_, ?_, ?_⟩
  · intro hr
    unfold ImageEncoder.Block.forwardDispatch
    rw [if_pos ⟨rfl, hr⟩]
  · intro y resF perm hinj
    refine ⟨rfl, ?_, ?_, ?_⟩
    · rw [Finset.card_image_of_injOn fun j1 h1 j2 h2 he =>
        hinj j1 j2 (Finset.mem_coe.mp h1 |> Finset.mem_range.mp)
          (Finset.mem_coe.mp h2 |> Finset.mem_range.mp) he]
      exact Finset.card_range _
    · intro j t c hj
      exact indexAddRows_mem (ImageEncoder.sampleSubsetSize b r) y perm
        (resF fun j2 => y (perm j2)) ((b : ℚ) / (ImageEncoder.sampleSubsetSize b r : ℚ))
        hinj j hj t c
    · intro i t c hi
      exact indexAddRows_not_mem (ImageEncoder.sampleSubsetSize b r) y perm
        (resF fun j2 => y (perm j2)) ((b : ℚ) / (ImageEncoder.sampleSubsetSize b r : ℚ))
        i hi t c
  · intro hr0 hr1 bi t c
    have hr0' : r ≠ 0 := ne_of_gt hr0
    have hpos : 0 < 1 - r := by linarith
    unfold ImageEncoder.Block.forwardDispatch
    rw [if_neg (fun h => absurd h.2 (by linarith)), if_pos ⟨rfl, hr0⟩,
      dropPathImpl_char r mask1 (attnResF x) hr0' hpos,
      dropPathImpl_char r mask2 _ hr0' hpos]
  · intro training hr
    subst hr
    unfold ImageEncoder.Block.forwardDispatch
    rw [if_neg (fun h => absurd h.2 (by norm_num)),
      if_neg (fun h => absurd h.2 (by norm_num))]
  · unfold ImageEncoder.Block.forwardDispatch
    rw [if_neg (fun h => Bool.false_ne_true h.1),
      if_neg (fun h => Bool.false_ne_true h.1)]

/-- C3 witness: at batch 3 and rate 1/2 in training mode, the rate exceeds
0.1 and the forward is the double scatter-add step. -/
theorem c3_stochastic_depth_regimes_witness :
    ImageEncoder.Block.forwardDispatch true (1/2) 3 (fun z => z) (fun z => z)
        id id (fun _ => true) (fun _ => true) (fun _ _ _ => 1) =
      ImageEncoder.drop_add_residual_stochastic_depth 3
        (ImageEncoder.drop_add_residual_stochastic_depth 3 (fun _ _ _ => 1)
          (fun z => z) (1/2) id)
        (fun z => z) (1/2) id :=
  (c3_stochastic_depth_regimes (1/2) 3 (fun z => z) (fun z => z) id id
    (fun _ => true) (fun _ => true) (fun _ _ _ => 1)).1 (by norm_num)

section ChunkLemmas

open ImageEncoder

variable {α : Type}

/-- The collecting loop advances the counter by the number of blocks. -/
theorem runCollect_fst (fs : List (α → α)) (i : ℕ) (x : α) (tt : List ℕ) :
    (runCollect fs i x tt).1 = i + fs.length := by
  induction fs generalizing i x with
  | nil => simp [runCollect]
  | cons f rest ih => simp [runCollect, ih]; omega

/-- The collecting loop over an appended list is the composition of the
loops, with the counter threaded through. -/
theorem runCollect_append (fs gs : List (α → α)) (i : ℕ) (x : α) (tt : List ℕ) :
    runCollect (fs ++ gs) i x tt =
      ((runCollect gs (i + fs.length) ((runCollect fs i x tt).2.1) tt).1,
       (runCollect gs (i + fs.length) ((runCollect fs i x tt).2.1) tt).2.1,
       (runCollect fs i x tt).2.2 ++
         (runCollect gs (i + fs.length) ((runCollect fs i x tt).2.1) tt).2.2) := by
  induction fs generalizing i x with
  | nil => simp [runCollect]
  | cons f rest ih =>
    simp only [List.cons_append, runCollect, List.append_eq]
    rw [ih (i + 1) (f x)]
    have h : i + 1 + rest.length = i + (rest.length + 1) := by omega
    rw [h]
    simp [List.append_assoc]

/-- Every start produced by `range(0, depth, cs)` is below `depth`. -/
theorem ceil_start_lt (depth cs m : ℕ) (hcs : 0 < cs)
    (hm : m < (depth + cs - 1) / cs) : m * cs < depth := by
  have hq := Nat.div_add_mod (depth + cs - 1) cs
  have hr := Nat.mod_lt (depth + cs - 1) hcs
  have h1 : m + 1 ≤ (depth + cs - 1) / cs := hm
  have h2 : (m + 1) * cs ≤ ((depth + cs - 1) / cs) * cs :=
    Nat.mul_le_mul_right cs h1
  have h3 : (m + 1) * cs = m * cs + cs := by ring
  have h4 : ((depth + cs - 1) / cs) * cs = cs * ((depth + cs - 1) / cs) := by ring
  omega

/-- The starts of `range(0, depth, cs)` cover all of `depth`. -/
theorem ceil_cov (depth cs : ℕ) (hcs : 0 < cs) :
    depth ≤ ((depth + cs - 1) / cs) * cs := by
  have hq := Nat.div_add_mod (depth + cs - 1) cs
  have hr := Nat.mod_lt (depth + cs - 1) hcs
  have h4 : ((depth + cs - 1) / cs) * cs = cs * ((depth + cs - 1) / cs) := by ring
  omega

/-- One chunk step of the chunked traversal. -/
theorem runChunks_cons (ch : List (α → α)) (rest : List (List (α → α)))
    (i : ℕ) (x : α) (tt : List ℕ) :
    runChunks (ch :: rest) i x tt =
      ((runChunks rest (runCollect (ch.drop i) i x tt).1
          (runCollect (ch.drop i) i x tt).2.1 tt).1,
       (runChunks rest (runCollect (ch.drop i) i x tt).1
          (runCollect (ch.drop i) i x tt).2.1 tt).2.1,
       (runCollect (ch.drop i) i x tt).2.2 ++
         (runChunks rest (runCollect (ch.drop i) i x tt).1
            (runCollect (ch.drop i) i x tt).2.1 tt).2.2) := rfl

/-- Processing the chunks whose starts are `s, s+cs, …` from global
counter `s` is processing the original blocks from index `s` on: each
chunk's identity padding is skipped by `block_chunk[i:]` because the
local index of its first real block equals the global counter. -/
theorem runChunks_eq (blocks : List (α → α)) (cs : ℕ) (tt : List ℕ)
    (len : ℕ) :
    ∀ (s : ℕ) (x : α),
      blocks.length ≤ s + len * cs →
      (∀ m, m < len → s + m * cs < blocks.length) →
      runChunks ((List.range' s len cs).map
          (fun i => List.replicate i id ++ (blocks.drop i).take cs)) s x tt =
        runCollect (blocks.drop s) s x tt := by
  induction len with
  | zero =>
    intro s x hcov _
    have hnil : blocks.drop s = [] := List.drop_eq_nil_of_le (by simpa using hcov)
    simp [runChunks, hnil, runCollect]
  | succ len ih =>
    intro s x hcov hvalid
    rw [List.range'_succ, List.map_cons]
    have hdrop : (List.replicate s (id : α → α) ++ (blocks.drop s).take cs).drop s =
        (blocks.drop s).take cs :=
      List.drop_left' (List.length_replicate s id)
    cases len with
    | zero =>
      have hslice : (blocks.drop s).take cs = blocks.drop s := by
        refine List.take_of_length_le ?_
        simp only [List.length_drop]
        omega
      rw [runChunks_cons, hdrop, hslice]
      simp [runChunks]
    | succ len' =>
      have hfull : s + cs ≤ blocks.length := by
        have := hvalid 1 (by omega)
        simpa using this.le
      have hslen : ((blocks.drop s).take cs).length = cs := by
        simp only [List.length_take, List.length_drop]
        omega
      have hsplit : blocks.drop s = (blocks.drop s).take cs ++ blocks.drop (s + cs) := by
        conv_lhs => rw [← List.take_append_drop cs (blocks.drop s)]
        rw [List.drop_drop]
      have hcounter : (runCollect ((blocks.drop s).take cs) s x tt).1 = s + cs := by
        rw [runCollect_fst, hslen]
      have hih := ih (s + cs) ((runCollect ((blocks.drop s).take cs) s x tt).2.1)
        (by
          have h3 : (len' + 1 + 1) * cs = cs + (len' + 1) * cs := by ring
          omega)
        (by
          intro m hm
          have := hvalid (m + 1) (by omega)
          have h3 : (m + 1) * cs = cs + m * cs := by ring
          omega)
      rw [runChunks_cons, hdrop, hcounter, hih]
      conv_rhs => rw [hsplit, runCollect_append]
      rw [hslen]

end ChunkLemmas

/-- C6: a block-chunked model (`block_chunks > 0`, and at most the depth
so that each chunk is nonempty) and the non-chunked model with the same
blocks produce identical intermediate-layer outputs for every list of
global block indices; and each chunk is padded with leading identity
placeholders so that, within a chunk, every real block sits at the local
index equal to its global depth index (the padding positions hold the
identity). -/
theorem c6_block_chunking (α : Type) (blocks : List (α → α)) (bc : ℕ)
    (x : α) (toTake : List ℕ) (hbc : 0 < bc) (hble : bc ≤ blocks.length) :
    (ImageEncoder.getIntermediateLayersChunked
        (ImageEncoder.chunkedBlocks blocks bc) x toTake =
      ImageEncoder.getIntermediateLayersNotChunked blocks x toTake) ∧
    (∀ ci l, ci < (ImageEncoder.chunkedBlocks blocks bc).length →
      (l < ci * (blocks.length / bc) →
        ((ImageEncoder.chunkedBlocks blocks bc).getD ci []).getD l id = id) ∧
      (ci * (blocks.length / bc) ≤ l →
        l < ((ImageEncoder.chunkedBlocks blocks bc).getD ci []).length →
        ((ImageEncoder.chunkedBlocks blocks bc).getD ci []).getD l id =
          blocks.getD l id)) := by
  have hcs : 0 < blocks.length / bc := Nat.div_pos hble hbc
  constructor
  · -- intermediate-layer equality
    have he := runChunks_eq blocks (blocks.length / bc) toTake
      ((blocks.length + blocks.length / bc - 1) / (blocks.length / bc)) 0 x
      (by have := ceil_cov blocks.length (blocks.length / bc) hcs; omega)
      (fun m hm => by
        have := ceil_start_lt blocks.length (blocks.length / bc) m hcs hm; omega)
    rw [List.drop_zero] at he
    simp only [ImageEncoder.getIntermediateLayersChunked,
      ImageEncoder.getIntermediateLayersNotChunked, ImageEncoder.chunkedBlocks]
    rw [he]
  · -- placeholder padding and index alignment
    intro ci l hci
    have hci' : ci <
        (blocks.length + blocks.length / bc - 1) / (blocks.length / bc) := by
      simpa [ImageEncoder.chunkedBlocks, List.length_range'] using hci
    have hmc : ci * (blocks.length / bc) = (blocks.length / bc) * ci :=
      Nat.mul_comm _ _
    have hget : (ImageEncoder.chunkedBlocks blocks bc).getD ci [] =
        List.replicate ((blocks.length / bc) * ci) (id : α → α) ++
          (blocks.drop ((blocks.length / bc) * ci)).take (blocks.length / bc) := by
      have hlt : ci < ((List.range' 0
          ((blocks.length + blocks.length / bc - 1) / (blocks.length / bc))
          (blocks.length / bc)).map
          (fun i => List.replicate i (id : α → α) ++
            (blocks.drop i).take (blocks.length / bc))).length := by
        simpa [List.length_range'] using hci'
      show ((List.range' 0
          ((blocks.length + blocks.length / bc - 1) / (blocks.length / bc))
          (blocks.length / bc)).map
          (fun i => List.replicate i (id : α → α) ++
            (blocks.drop i).take (blocks.length / bc))).getD ci [] = _
      rw [List.getD_eq_getElem?_getD, List.getElem?_eq_getElem hlt]
      simp [List.getElem_range']
    constructor
    · intro hl
      rw [hget]
      have hl2 : l <
          (List.replicate ((blocks.length / bc) * ci) (id : α → α)).length := by
        simp only [List.length_replicate]; omega
      simp only [List.getD_eq_getElem?_getD, List.getElem?_append_left hl2,
        List.getElem?_replicate]
      split <;> rfl
    · intro hge hllen
      rw [hget] at hllen ⊢
      have hge' : (List.replicate ((blocks.length / bc) * ci)
          (id : α → α)).length ≤ l := by
        simp only [List.length_replicate]; omega
      simp only [List.length_append, List.length_replicate, List.length_take,
        List.length_drop] at hllen
      have hlt2 : l - (blocks.length / bc) * ci < blocks.length / bc := by omega
      simp only [List.getD_eq_getElem?_getD, List.getElem?_append_right hge',
        List.length_replicate]
      rw [List.getElem?_take_of_lt hlt2, List.getElem?_drop]
      have hid : (blocks.length / bc) * ci + (l - (blocks.length / bc) * ci) = l := by
        omega
      rw [hid]

/-- C6 witness: two blocks split into two chunks give the same
intermediate layers, at both global indices, as the plain block list. -/
theorem c6_block_chunking_witness :
    ImageEncoder.getIntermediateLayersChunked
        (ImageEncoder.chunkedBlocks [Nat.succ, Nat.succ] 2) 0 [0, 1] =
      ImageEncoder.getIntermediateLayersNotChunked [Nat.succ, Nat.succ] 0 [0, 1] :=
  (c6_block_chunking ℕ [Nat.succ, Nat.succ] 2 0 [0, 1]
    (by decide) (by decide)).1

/-- C4: when the xformers capability is absent, `MemEffAttention.forward`
raises if an explicit attention bias is supplied, and with no bias it
silently falls back to the dense path, returning exactly the output of
the standard `Attention.forward` on that input. -/
theorem c4_memeff_fallback (A : ImageEncoder.AttentionW) (expF : ℚ → ℚ)
    (xscale : ℚ) (x : ImageEncoder.Tensor3) :
    (∀ bias : ImageEncoder.BlockDiagonalMask,
      ImageEncoder.MemEffAttention.forward A expF xscale false x (some bias) =
        .error "xFormers is required for using nested tensors") ∧
    ImageEncoder.MemEffAttention.forward A expF xscale false x none =
      .ok (ImageEncoder.Attention.forward A expF x) := by
  constructor
  · intro bias
    simp [ImageEncoder.MemEffAttention.forward]
  · simp [ImageEncoder.MemEffAttention.forward]

/-- C2: when the input's height and width both equal the reference
resolution `R` the model was configured with — so that the incoming token
count `npatch` matches the learned table (`npatch = pos_embed.n - 1`) —
`interpolate_pos_encoding` returns the stored table itself, unchanged,
without touching the resampling kernel. -/
theorem c2_pos_encoding_identity_fast_path (cfg : ImageEncoder.PosEnc)
    (interpF : Bool → (ℕ → ℕ → ℕ → ℚ) → ℕ → ℕ → ℕ → ℕ → ℕ → ℕ → ℚ)
    (npatch w h R : ℕ) (hw : w = R) (hh : h = R)
    (htok : npatch = cfg.pos_embed.n - 1) :
    cfg.interpolatePosEncoding interpF npatch w h = .ok cfg.pos_embed := by
  subst hw hh htok
  simp [ImageEncoder.PosEnc.interpolatePosEncoding]

/-- C2 witness: a 224×224 input against the 14×14-grid table (196 + 1
rows) returns the table itself. -/
theorem c2_pos_encoding_identity_fast_path_witness :
    Fixtures.posEncSquare.interpolatePosEncoding Fixtures.interpF0 196 224 224 =
      .ok Fixtures.posEncSquare.pos_embed :=
  c2_pos_encoding_identity_fast_path Fixtures.posEncSquare Fixtures.interpF0
    196 224 224 224 rfl rfl (by decide)

/-- C10: whenever the identity fast path is not taken, the learned table's
patch count must be a perfect square: if it is not, the call fails an
assertion even when the input's height and width are valid multiples of
the patch size. -/
theorem c10_nonsquare_reference_grid_asserts (cfg : ImageEncoder.PosEnc)
    (interpF : Bool → (ℕ → ℕ → ℕ → ℚ) → ℕ → ℕ → ℕ → ℕ → ℕ → ℕ → ℚ)
    (npatch w h : ℕ)
    (hnotfast : ¬(npatch = cfg.pos_embed.n - 1 ∧ w = h))
    (hnonsq : cfg.pos_embed.n - 1 ≠
      Nat.sqrt (cfg.pos_embed.n - 1) * Nat.sqrt (cfg.pos_embed.n - 1))
    (hdivw : w % cfg.patch_size = 0) (hdivh : h % cfg.patch_size = 0) :
    cfg.interpolatePosEncoding interpF npatch w h =
      .error "num_patches is not a perfect square" := by
  simp only [ImageEncoder.PosEnc.interpolatePosEncoding]
  rw [if_neg hnotfast, if_pos hnonsq]

/-- C10 witness: the 14×7 reference grid (98 patches, not a square) with a
112×224 input (both multiples of patch 16, matching token count 98 but
`w ≠ h`, so no fast path) fails the square-grid assertion. -/
theorem c10_nonsquare_reference_grid_asserts_witness :
    Fixtures.posEncNonSquare.interpolatePosEncoding Fixtures.interpF0 98 112 224 =
      .error "num_patches is not a perfect square" :=
  c10_nonsquare_reference_grid_asserts Fixtures.posEncNonSquare Fixtures.interpF0
    98 112 224 (by decide) (by norm_num [Fixtures.posEncNonSquare]) (by decide)
    (by decide)

/-- C7: with the flattening flag set, whenever the image height and width
are integer multiples of the patch size, `PatchEmbed.forward` returns a
token sequence of exactly `(H/patch)·(W/patch)` tokens of dimension
`embed_dim`; when either is not a multiple, it fails. -/
theorem c7_patch_embed_tokens (pe : ImageEncoder.PatchEmbed)
    (x : ImageEncoder.Tensor4) (hflat : pe.flatten_embedding = true) :
    (x.h % pe.patch_h = 0 ∧ x.w % pe.patch_w = 0 →
      ∃ t : ImageEncoder.Tensor3,
        pe.forward x = .ok (.flat t) ∧
        t.n = x.h / pe.patch_h * (x.w / pe.patch_w) ∧ t.d = pe.embed_dim) ∧
    (x.h % pe.patch_h ≠ 0 ∨ x.w % pe.patch_w ≠ 0 →
      ∃ msg, pe.forward x = .error msg) := by
  constructor
  · rintro ⟨hh, hw⟩
    have heq : pe.forward x = .ok (.flat
        { b := (pe.proj x).b
          n := (pe.proj x).h * (pe.proj x).w
          d := pe.embed_dim
          val := fun bi t d =>
            (pe.proj x).val bi d (t / (pe.proj x).w) (t % (pe.proj x).w) }) := by
      simp [ImageEncoder.PatchEmbed.forward, hh, hw, hflat]
    exact ⟨_, heq, rfl, rfl⟩
  · intro hbad
    rcases Decidable.em (x.h % pe.patch_h = 0) with hh | hh
    · rcases hbad with h | h
      · exact absurd hh h
      · exact ⟨"Input image width is not a multiple of patch width",
          by simp [ImageEncoder.PatchEmbed.forward, hh, h]⟩
    · exact ⟨"Input image height is not a multiple of patch height",
        by simp [ImageEncoder.PatchEmbed.forward, hh]⟩

/-- C7 witness: on a concrete 4×6 image with 2×2 patches the forward
returns 2·3 = 6 tokens of dimension 3; on a 4×5 image it fails. -/
theorem c7_patch_embed_tokens_witness :
    (∃ t : ImageEncoder.Tensor3,
        Fixtures.pe0.forward Fixtures.x0 = .ok (.flat t) ∧
        t.n = 6 ∧ t.d = 3) ∧
    (∃ msg, Fixtures.pe0.forward Fixtures.x1 = .error msg) := by
  constructor
  · obtain ⟨t, h1, h2, h3⟩ :=
      (c7_patch_embed_tokens Fixtures.pe0 Fixtures.x0 rfl).1 ⟨rfl, rfl⟩
    exact ⟨t, h1, h2, h3⟩
  · exact (c7_patch_embed_tokens Fixtures.pe0 Fixtures.x1 rfl).2 (Or.inr (by decide))

/-- C8 witness. -/
theorem c8_swiglu_hidden_width_witness :
    swiGLUFFNFusedHidden 1536 = 1024 ∧ 8 ∣ swiGLUFFNFusedHidden 1536 :=
  ⟨by decide, (c8_swiglu_hidden_width 1536).2.1⟩

end Claims
